import Mathlib

/-!
# ZX Spectrum machine layer of `z80emu` (`z80user.c`, `z80context.h`)

A shallow embedding of the machine layer that sits on top of the Z80 CPU engine:
memory and port access, the keyboard matrix, the scanline renderer, the frame
scheduler and the `.z80` snapshot loader, followed by the properties proved
about them.

Conventions of the embedding.

* An `unsigned char` or `unsigned short` is a `Nat`; every conversion to such a
  type the C code performs is written out as `% 256` or `% 65536`.
* An `int` is an `Int`.  The bitwise operators on an `int` act on its 32-bit
  two's complement pattern (`bits32`), `>>` on an `int` is the arithmetic shift.
  Signed overflow is undefined in C; the compiled code keeps the low 32 bits, and
  so does the embedding (`wrap32`) where `RenderFrame` subtracts the caller's
  length and increments `frame_counter`.  The cycle counts the engine returns are of
  the order of a scanline, and the carry arithmetic on them is exact.
* The arrays inside `Z80_CONTEXT` are functions from the index; only indices
  below the declared size are ever used.  An access whose index is not known to be
  in range is checked, and the function returns `none` when it is out of range.
* A caller's buffer (`data`, `frame`) is the function from an index to the byte the
  pointer yields there, inside the buffer and past its end; its `length` travels
  separately, as in the C code.  The values of a buffer of `unsigned char` are below
  256; a property that needs this assumes it.
* Buffer offsets and lengths are `int`s that stay non-negative; they are `Nat`.
* A C function that receives the context pointer returns the context it leaves.
-/

namespace Z80Emu

/-! ## Machine integers -/

/-- The 32-bit two's complement bit pattern of an `int`. -/
def bits32 (x : Int) : Nat := (x % 4294967296).toNat

/-- The C expression `x & m` for an `int` `x` and a non-negative constant
`m` below `2^31`: the result is non-negative. -/
def andMask (x : Int) (m : Nat) : Nat := bits32 x &&& m

/-- The `int` an arithmetic result is stored as: the value itself when it is in
`-2^31 .. 2^31 - 1`, and the value with the same low 32 bits otherwise. -/
def wrap32 (x : Int) : Int := (x + 2147483648) % 4294967296 - 2147483648

/-- Whether `idx` is a valid index into an array of `size` elements. -/
def inBounds (idx : Int) (size : Nat) : Bool := decide (0 ≤ idx) && decide (idx < size)

/-- The assignment `array[index] = value`. -/
def setByte (array : Nat → Nat) (index value : Nat) : Nat → Nat :=
  fun j => if j = index then value else array j

/-- The call `memset(buf + base, value, count)`. -/
def memset (buf : Nat → Nat) (base value count : Nat) : Nat → Nat :=
  fun j => if base ≤ j ∧ j < base + count then value % 256 else buf j

/-- The call `memcpy(buf + base, src, sizeof src)` for a source array given as a list. -/
def memcpy (buf : Nat → Nat) (base : Nat) (src : List Nat) : Nat → Nat :=
  fun j => if base ≤ j ∧ j < base + src.length then src.getD (j - base) 0 else buf j

/-! ## Data model -/

/-- Modelled from the spec: the CPU state `Z80_STATE` is declared in `z80emu.h`,
which is not part of the sources ("externally defined CPU register/flag state,
opaque to this core").  The fields are the ones `z80user.c` assigns: `a` and `f`
stand for `registers.byte[Z80_A]` and `registers.byte[Z80_F]`, `bc` .. `ix` for
`registers.word[Z80_BC]` .. `registers.word[Z80_IX]`, `alt_bc` .. `alt_af` for
`alternates[Z80_BC]` .. `alternates[Z80_AF]`; `internal` is whatever else the
engine keeps. -/
structure Z80_STATE where
  a : Nat
  f : Nat
  bc : Nat
  hl : Nat
  sp : Nat
  de : Nat
  iy : Nat
  ix : Nat
  alt_bc : Nat
  alt_de : Nat
  alt_hl : Nat
  alt_af : Nat
  i : Nat
  r : Nat
  pc : Nat
  iff1 : Nat
  iff2 : Nat
  im : Nat
  internal : Nat

/-- The machine state `Z80_CONTEXT` of `z80context.h`. -/
structure Z80_CONTEXT where
  state : Z80_STATE
  memory : Nat → Nat
  keyboard : Nat → Nat
  border : Nat
  ear : Nat
  frame_counter : Int
  is_done : Int

/-- Modelled from the spec: the CPU engine and the ROM image (`z80emu.h`,
`z80rom.h`) are not part of the sources; the machine layer treats the engine as a
collaborator with three operations: reset the CPU state, deliver an interrupt
and execute a number of cycles, the last two returning the cycles consumed.  The
engine receives the context (it calls back into memory and ports), so an
operation is any function from the context to a context and a cycle count. -/
structure Engine where
  Z80Reset : Z80_STATE → Z80_STATE
  Z80Interrupt : Z80_CONTEXT → Int → Z80_CONTEXT × Int
  Z80Emulate : Z80_CONTEXT → Int → Z80_CONTEXT × Int
  z80_rom : List Nat

/-- One call from the frame scheduler into the engine, with its argument. -/
inductive EngineCall where
  | interrupt (data_on_bus : Int)
  | emulate (number_cycles : Int)
  deriving DecidableEq, Repr

/-- The macro `READWORD(buffer, address)`. -/
def READWORD (buffer : Nat → Nat) (address : Nat) : Nat :=
  buffer (address % 65536) ||| (buffer ((address + 1) % 65536) <<< 8)

/-! ## Context lifecycle -/

/-- The function `InitContext`. -/
def InitContext (eng : Engine) (context : Z80_CONTEXT) : Z80_CONTEXT :=
  { state := eng.Z80Reset context.state
    memory := memcpy (fun _ => 0) 0 eng.z80_rom
    keyboard := fun _ => 0xFF
    border := 0
    ear := 0
    frame_counter := 0
    is_done := 0 }

/-- The function `CreateContext`; `fresh` is the block `malloc` returns, its content
unspecified. -/
def CreateContext (eng : Engine) (fresh : Z80_CONTEXT) : Z80_CONTEXT :=
  InitContext eng fresh

/-! ## Keyboard matrix -/

/-- The function `KeyDown`.  The guard lets a negative half-row through, and
the array access that follows is then out of bounds. -/
def KeyDown (context : Z80_CONTEXT) (k : Int) : Option Z80_CONTEXT :=
  if k >>> (8 : Nat) ≥ 8 then some context
  else if inBounds (k >>> (8 : Nat)) 8 then
    let row := (k >>> (8 : Nat)).toNat
    some { context with
      keyboard := setByte context.keyboard row
        ((context.keyboard row &&& (andMask (~~~k) 0xFF % 256)) % 256) }
  else none

/-- The function `KeyUp`. -/
def KeyUp (context : Z80_CONTEXT) (k : Int) : Option Z80_CONTEXT :=
  if k >>> (8 : Nat) ≥ 8 then some context
  else if inBounds (k >>> (8 : Nat)) 8 then
    let row := (k >>> (8 : Nat)).toNat
    some { context with
      keyboard := setByte context.keyboard row
        ((context.keyboard row ||| (andMask k 0xFF % 256)) % 256) }
  else none

/-! ## Memory and ports -/

/-- The function `ReadMemory`. -/
def ReadMemory (context : Z80_CONTEXT) (offset : Int) : Z80_CONTEXT × Int :=
  (context, (context.memory (andMask offset 0xFFFF) : Int))

/-- The function `WriteMemory`; `b` is converted to `unsigned char` at the call. -/
def WriteMemory (context : Z80_CONTEXT) (offset : Int) (b : Nat) : Z80_CONTEXT × Int :=
  let old : Int := context.memory (andMask offset 0xFFFF)
  ({ context with memory := setByte context.memory (andMask offset 0xFFFF) (b % 256) }, old)

/-- The function `SystemInput`. -/
def SystemInput (context : Z80_CONTEXT) (port : Int) : Z80_CONTEXT × Nat :=
  if andMask port 0xFF ≠ 0xFE then (context, 0xFF)
  else
    let ret := 0xFF
    let highPart := andMask (port >>> (8 : Nat)) 0xFF % 256
    let ret := if highPart &&& 1 = 0 then (ret &&& context.keyboard 0) % 256 else ret
    let ret := if highPart &&& 2 = 0 then (ret &&& context.keyboard 1) % 256 else ret
    let ret := if highPart &&& 4 = 0 then (ret &&& context.keyboard 2) % 256 else ret
    let ret := if highPart &&& 8 = 0 then (ret &&& context.keyboard 3) % 256 else ret
    let ret := if highPart &&& 16 = 0 then (ret &&& context.keyboard 4) % 256 else ret
    let ret := if highPart &&& 32 = 0 then (ret &&& context.keyboard 5) % 256 else ret
    let ret := if highPart &&& 64 = 0 then (ret &&& context.keyboard 6) % 256 else ret
    let ret := if highPart &&& 128 = 0 then (ret &&& context.keyboard 7) % 256 else ret
    (context, ret)

/-- The function `SystemOutput`. -/
def SystemOutput (context : Z80_CONTEXT) (port value : Int) : Z80_CONTEXT :=
  if andMask port 0xFF ≠ 0xFE then context
  else
    { context with
      border := andMask value 7 % 256
      ear := andMask value 0x10 % 256 }

/-! ## Screen renderer -/

/-- The body of the loop of `GetPixels` for one `bit`: the byte stored in
`data[7-bit]`. -/
def GetPixels.pixel (bits color : Nat) (flash : Int) (bit : Nat) : Nat :=
  let isFlash := color &&& 0x80 ≠ 0
  let isBright := color &&& 0x40 ≠ 0
  let colorPaper := (color >>> 3) &&& 7
  let colorInk := color &&& 7
  let set := bits &&& (1 <<< bit) ≠ 0
  let selected :=
    if isFlash ∧ flash ≠ 0 then (if set then colorPaper else colorInk)
    else (if set then colorInk else colorPaper)
  (if isBright then selected ||| 8 else selected) % 256

/-- The function `GetPixels`: the eight bytes it leaves in `data[0..7]`,
produced for `bit = 7` down to `0`. -/
def GetPixels (bits color : Nat) (flash : Int) : List Nat :=
  [7, 6, 5, 4, 3, 2, 1, 0].map (GetPixels.pixel bits color flash)

/-- The loop over the 32 character cells of `CopyScreenLine`, for the cells
`chx .. 31` (`count` of them are left). -/
def CopyScreenLine.cells (memory : Nat → Nat) (bitmapOffset colorInfoOffset : Nat)
    (flash : Int) (offset : Nat) : Nat → Nat → (Nat → Nat) → (Nat → Nat)
  | 0, _, frame_buf => frame_buf
  | count + 1, chx, frame_buf =>
    let bitmap := memory (bitmapOffset + chx)
    let color := memory (colorInfoOffset + chx)
    let outBuffer := GetPixels bitmap color flash
    CopyScreenLine.cells memory bitmapOffset colorInfoOffset flash offset count (chx + 1)
      (memcpy frame_buf (offset + chx * 8) outBuffer)

/-- The function `CopyScreenLine`, for a scanline `y ≥ 0`; returns the frame
buffer it leaves. -/
def CopyScreenLine (context : Z80_CONTEXT) (y : Nat) (frame_buf : Nat → Nat) : Nat → Nat :=
  let lineSize := 352
  let borderLR := 48
  let memory := context.memory
  let offset := y * lineSize
  if y < 48 ∨ y ≥ 240 then
    memset frame_buf offset context.border lineSize
  else
    let frame_buf := memset frame_buf offset context.border borderLR
    let frame_buf := memset frame_buf (offset + lineSize - borderLR) context.border borderLR
    let offset := offset + borderLR
    let y0 := y - 48
    let newY := (y0 &&& 0xC0) ||| ((y0 <<< 3) &&& 0x38) ||| ((y0 >>> 3) &&& 7)
    let bitmapOffset := 0x4000 + (newY <<< 5)
    let colorInfoOffset := 0x5800 + y0 / 8 * 32
    let flash : Int := if andMask context.frame_counter 16 ≠ 0 then 1 else 0
    CopyScreenLine.cells memory bitmapOffset colorInfoOffset flash offset 32 0 frame_buf

/-! ## Frame scheduler -/

/-- What a call of `RenderFrame` leaves: the value returned, the context, the
frame buffer and the calls made into the engine, oldest first. -/
structure RenderResult where
  ret : Int
  context : Z80_CONTEXT
  frame : Nat → Nat
  calls : List EngineCall

/-- The scanline loop of `RenderFrame`, for the scanlines `y .. y + count - 1`. -/
def RenderFrame.lines (eng : Engine) :
    Nat → Nat → Int → Z80_CONTEXT → (Nat → Nat) → List EngineCall →
      Z80_CONTEXT × (Nat → Nat) × List EngineCall
  | 0, _, _, context, frame, calls => (context, frame, calls)
  | count + 1, y, diff, context, frame, calls =>
    let r := eng.Z80Emulate context (224 - diff)
    let ticksEmulated := r.2
    RenderFrame.lines eng count (y + 1) (ticksEmulated - 224) r.1 (CopyScreenLine r.1 y frame)
      (calls ++ [EngineCall.emulate (224 - diff)])

/-- The function `RenderFrame`. -/
def RenderFrame (eng : Engine) (context : Z80_CONTEXT) (frame : Nat → Nat) (length : Int) :
    RenderResult :=
  let FRAMEBUF_SZ : Int := 352 * 312
  if length < FRAMEBUF_SZ then
    { ret := wrap32 (FRAMEBUF_SZ - length), context := context, frame := frame, calls := [] }
  else
    let r := eng.Z80Interrupt context 0
    let diff := r.2
    let out := RenderFrame.lines eng 312 0 diff r.1 frame [EngineCall.interrupt 0]
    { ret := 0
      context := { out.1 with frame_counter := wrap32 (out.1.frame_counter + 1) }
      frame := out.2.1
      calls := out.2.2 }

/-! ## Snapshot loader -/

/-- The function `GetPage`. -/
def GetPage (page : Nat) : Nat :=
  match page with
  | 0 => 0
  | 4 => 0x8000
  | 5 => 0xc000
  | 8 => 0x4000
  | _ => 0

/-- The loop `while (repeat-- > 0) memory[offset++] = value;` of `UnpackMem`;
`offset` is an `unsigned short`. -/
def UnpackMem.fill (value : Nat) : Nat → (Nat → Nat) → Nat → (Nat → Nat) × Nat
  | 0, memory, offset => (memory, offset)
  | repeat_ + 1, memory, offset =>
    UnpackMem.fill value repeat_ (setByte memory offset value) ((offset + 1) % 65536)

/-- The `for` loop of `UnpackMem` from index `i` on.  Every pass advances `i`, so
`fuel ≥ end_ - i` passes are enough (see `UnpackMem.loop_fuel`). -/
def UnpackMem.loop (data : Nat → Nat) (end_ compressed : Nat) :
    Nat → Nat → (Nat → Nat) → Nat → (Nat → Nat) × Nat
  | 0, _, memory, offset => (memory, offset)
  | fuel + 1, i, memory, offset =>
    if i < end_ then
      if compressed ≠ 0 ∧ data (i + 0) = 0x00 ∧ data (i + 1) = 0xED ∧
          data (i + 2) = 0xED ∧ data (i + 3) = 0x00 then
        (memory, offset)
      else if data i = 0xED ∧ data (i + 1) = 0xED ∧ compressed ≠ 0 then
        let repeat_ := data (i + 2)
        let value := data (i + 3)
        let filled := UnpackMem.fill value repeat_ memory offset
        UnpackMem.loop data end_ compressed fuel (i + 3 + 1) filled.1 filled.2
      else
        UnpackMem.loop data end_ compressed fuel (i + 1)
          (setByte memory offset (data i)) ((offset + 1) % 65536)
    else (memory, offset)

/-- The function `UnpackMem`; `offset` is converted to `unsigned short` at the
call.  Returns the context it leaves and the final `offset`. -/
def UnpackMem (context : Z80_CONTEXT) (offset : Nat) (data : Nat → Nat) (start end_ : Nat)
    (compressed : Nat) : Z80_CONTEXT × Nat :=
  let out := UnpackMem.loop data end_ compressed (end_ - start) start context.memory
    (offset % 65536)
  ({ context with memory := out.1 }, out.2)

/-- The `while (i != length)` loop of `ReadV2Format`.  The loop need not
terminate; `none` means that `fuel` passes did not reach `i = length`. -/
def ReadV2Format.loop (data : Nat → Nat) (length : Nat) :
    Nat → Nat → Z80_CONTEXT → Option Z80_CONTEXT
  | fuel, i, context =>
    if i ≠ length then
      match fuel with
      | 0 => none
      | fuel + 1 =>
        let datalen := READWORD data i
        let page := GetPage (data (i + 2))
        let i := i + 3
        let compressed := if datalen = 0xFFFF then 0 else 1
        let datalen := if datalen = 0xFFFF then 16384 else datalen
        let context := (UnpackMem context page data i (i + datalen) compressed).1
        ReadV2Format.loop data length fuel (i + datalen) context
    else some context

/-- The function `ReadV2Format`. -/
def ReadV2Format (fuel : Nat) (context : Z80_CONTEXT) (data : Nat → Nat) (length : Nat) :
    Option Z80_CONTEXT :=
  let len := READWORD data 30
  let context := { context with state := { context.state with pc := READWORD data 32 } }
  let i := 32 + len
  ReadV2Format.loop data length fuel i context

/-- The function `LoadZ80Format`; `fuel` bounds the passes of the block loop of
`ReadV2Format`. -/
def LoadZ80Format (eng : Engine) (fuel : Nat) (context : Z80_CONTEXT) (data : Nat → Nat)
    (length : Nat) : Option Z80_CONTEXT :=
  let context := InitContext eng context
  let bitinfo := if data 12 = 255 then 1 else data 12
  let state : Z80_STATE :=
    { context.state with
      a := data 0
      f := data 1
      bc := READWORD data 2
      hl := READWORD data 4
      sp := READWORD data 8
      de := READWORD data 13
      pc := READWORD data 6
      i := data 10
      r := ((data 11 &&& 127) ||| (bitinfo <<< 7)) % 256
      alt_bc := READWORD data 15
      alt_de := READWORD data 17
      alt_hl := READWORD data 19
      alt_af := ((data 21 <<< 8) ||| data 22) % 65536
      iy := READWORD data 23
      ix := READWORD data 25
      iff1 := if data 27 ≠ 0 then 1 else 0
      iff2 := if data 28 ≠ 0 then 1 else 0
      im := data 29 &&& 3 }
  let context : Z80_CONTEXT :=
    { context with state := state, border := ((bitinfo >>> 1) &&& 7) % 256 }
  if state.pc = 0 then
    ReadV2Format fuel context data length
  else
    some (UnpackMem context 0x4000 data 30 length (if bitinfo &&& 32 ≠ 0 then 1 else 0)).1

/-! ## Specification-side definitions -/

/-- One line `if ((highPart & (1 << i)) == 0) ret &= keyboard[i];` of `SystemInput`. -/
def SystemInput.select (highPart : Nat) (keyboard : Nat → Nat) (ret i : Nat) : Nat :=
  if highPart &&& 2 ^ i = 0 then (ret &&& keyboard i) % 256 else ret

/-- The bitwise AND of the keyboard half-rows `i` in `0..7` whose bit `i` is clear
in `high`; the AND of no byte at all is `0xFF`. -/
def andSelected (keyboard : Nat → Nat) (high : Nat) : Nat :=
  ((List.range 8).filter (fun i => !high.testBit i)).foldl (fun acc i => acc &&& keyboard i) 0xFF

/-- One step of `andSelected` over the unfiltered list of half-rows. -/
def andSelected.step (high : Nat) (keyboard : Nat → Nat) (acc i : Nat) : Nat :=
  if (!high.testBit i) = true then acc &&& keyboard i else acc

/-- The little-endian 16-bit word of a buffer at offset `k`. -/
def leWord (data : Nat → Nat) (k : Nat) : Nat := data k + 256 * data (k + 1)

/-- Storing the bytes of a list one after another from `offset` on, the offset being
an `unsigned short` that wraps from 65535 to 0: the memory and the offset left. -/
def writeSeq (memory : Nat → Nat) (offset : Nat) : List Nat → (Nat → Nat) × Nat
  | [] => (memory, offset)
  | b :: bs => writeSeq (setByte memory offset b) ((offset + 1) % 65536) bs

/-- The bytes `data[start .. start + count)`. -/
def slice (data : Nat → Nat) (start : Nat) : Nat → List Nat
  | 0 => []
  | count + 1 => data start :: slice data (start + 1) count

/-- A token of the run-length scheme: `ED ED n v` or a single byte. -/
inductive Token where
  | run (n v : Nat)
  | lit (b : Nat)
  deriving DecidableEq, Repr

/-- The number of source bytes of a token. -/
def Token.size : Token → Nat
  | .run _ _ => 4
  | .lit _ => 1

/-- The bytes a token stands for: `n` copies of `v`, or the byte itself. -/
def Token.expand : Token → List Nat
  | .run n v => List.replicate n v
  | .lit b => [b]

/-- The source bytes of a token. -/
def Token.encode : Token → List Nat
  | .run n v => [0xED, 0xED, n, v]
  | .lit b => [b]

/-- The number of source bytes of a token sequence. -/
def sizeAll : List Token → Nat
  | [] => 0
  | t :: ts => t.size + sizeAll ts

/-- The concatenation of the expansions of a token sequence. -/
def expandAll : List Token → List Nat
  | [] => []
  | t :: ts => t.expand ++ expandAll ts

/-- The four bytes at `i` are the end marker `00 ED ED 00`. -/
def marker (data : Nat → Nat) (i : Nat) : Prop :=
  data i = 0x00 ∧ data (i + 1) = 0xED ∧ data (i + 2) = 0xED ∧ data (i + 3) = 0x00

instance (data : Nat → Nat) (i : Nat) : Decidable (marker data i) := by
  unfold marker; infer_instance

/-- The token read at position `i` of the buffer: a run when the two bytes at `i` are
`ED ED`, else the literal byte at `i`.  The look-ahead is on the buffer, wherever the
region being decoded ends. -/
def Token.At (data : Nat → Nat) (i : Nat) : Token → Prop
  | .run n v => data i = 0xED ∧ data (i + 1) = 0xED ∧ data (i + 2) = n ∧ data (i + 3) = v
  | .lit b => data i = b ∧ ¬ (data i = 0xED ∧ data (i + 1) = 0xED)

instance (data : Nat → Nat) (i : Nat) (t : Token) : Decidable (t.At data i) := by
  cases t <;> unfold Token.At <;> infer_instance

/-- The token sequence is what the scan reads from position `i` on: no end marker
starts at the position of a token, and each token is the one read there. -/
def Scans (data : Nat → Nat) : Nat → List Token → Prop
  | _, [] => True
  | i, t :: ts => ¬ marker data i ∧ t.At data i ∧ Scans data (i + t.size) ts

instance Scans.decidable (data : Nat → Nat) : (i : Nat) → (toks : List Token) → Decidable (Scans data i toks)
  | _, [] => isTrue trivial
  | i, t :: ts =>
    have := Scans.decidable data (i + t.size) ts
    by unfold Scans; infer_instance

/-- The local `bitinfo` of `LoadZ80Format`: header byte 12, with `0xFF` read as 1. -/
def LoadZ80Format.bitinfo (data : Nat → Nat) : Nat := if data 12 = 255 then 1 else data 12

/-- The context `LoadZ80Format` has built when it has read the 30 header bytes,
before it looks at the payload. -/
def LoadZ80Format.header (eng : Engine) (context : Z80_CONTEXT) (data : Nat → Nat) : Z80_CONTEXT :=
  { InitContext eng context with
    state :=
      { (InitContext eng context).state with
        a := data 0
        f := data 1
        bc := READWORD data 2
        hl := READWORD data 4
        sp := READWORD data 8
        de := READWORD data 13
        pc := READWORD data 6
        i := data 10
        r := ((data 11 &&& 127) ||| (LoadZ80Format.bitinfo data <<< 7)) % 256
        alt_bc := READWORD data 15
        alt_de := READWORD data 17
        alt_hl := READWORD data 19
        alt_af := ((data 21 <<< 8) ||| data 22) % 65536
        iy := READWORD data 23
        ix := READWORD data 25
        iff1 := if data 27 ≠ 0 then 1 else 0
        iff2 := if data 28 ≠ 0 then 1 else 0
        im := data 29 &&& 3 }
    border := ((LoadZ80Format.bitinfo data >>> 1) &&& 7) % 256 }

/-- A page block of the extended format: `raw` is a block whose length field is `0xFFFF`
(16384 bytes stored as they are), `packed` a run-length block with its tokens. -/
inductive Block where
  | raw (page : Nat)
  | packed (page : Nat) (toks : List Token)

/-- The page identifier of a block (byte 2 of its header). -/
def Block.page : Block → Nat
  | .raw page => page
  | .packed page _ => page

/-- The number of data bytes of a block in the file. -/
def Block.size : Block → Nat
  | .raw _ => 16384
  | .packed _ toks => sizeAll toks

/-- The bytes a block stands for; `i` is the offset of its data in the file. -/
def Block.output (data : Nat → Nat) (i : Nat) : Block → List Nat
  | .raw _ => slice data i 16384
  | .packed _ toks => expandAll toks

/-- The block whose header is at offset `i` of the buffer is this one: the length
field, the page identifier and, for a run-length block, the tokens the scan reads
from its data. -/
def Block.At (data : Nat → Nat) (i : Nat) : Block → Prop
  | .raw page => leWord data i = 0xFFFF ∧ data (i + 2) = page
  | .packed page toks =>
    leWord data i = sizeAll toks ∧ sizeAll toks ≠ 0xFFFF ∧ data (i + 2) = page ∧
      Scans data (i + 3) toks

instance (data : Nat → Nat) (i : Nat) (b : Block) : Decidable (b.At data i) := by
  cases b <;> unfold Block.At <;> infer_instance

/-- The blocks tile the buffer from offset `i` up to `length`, each header lying
below offset 65535 (where `READWORD` reads the word at the offset it is given). -/
def Tiles (data : Nat → Nat) (length : Nat) : Nat → List Block → Prop
  | i, [] => i = length
  | i, b :: bs => i + 1 < 65536 ∧ b.At data i ∧ Tiles data length (i + 3 + b.size) bs

instance Tiles.decidable (data : Nat → Nat) (length : Nat) :
    (i : Nat) → (blocks : List Block) → Decidable (Tiles data length i blocks)
  | _, [] => by unfold Tiles; infer_instance
  | i, b :: bs =>
    have := Tiles.decidable data length (i + 3 + b.size) bs
    by unfold Tiles; infer_instance

/-- The memory after the data of the blocks has been stored in file order, each
block from the address `GetPage` gives for its page identifier. -/
def writeBlocks (data : Nat → Nat) : Nat → List Block → (Nat → Nat) → (Nat → Nat)
  | _, [], memory => memory
  | i, b :: bs, memory =>
    writeBlocks data (i + 3 + b.size) bs
      (writeSeq memory (GetPage b.page) (b.output data (i + 3))).1

/-- The row map of `CopyScreenLine`: the local `newY` for the in-screen row `y0`. -/
def rowMap (y0 : Nat) : Nat := (y0 &&& 0xC0) ||| ((y0 <<< 3) &&& 0x38) ||| ((y0 >>> 3) &&& 7)

/-- The local `flash` of `CopyScreenLine`: 1 when bit 4 of `frame_counter` is set. -/
def flashPhase (frame_counter : Int) : Int := if andMask frame_counter 16 ≠ 0 then 1 else 0

/-- The address of the bitmap byte of in-screen row `y0` and column `x`. -/
def bitmapAddress (y0 x : Nat) : Nat :=
  0x4000 + ((y0 &&& 0xC0) <<< 5) + ((y0 &&& 7) <<< 8) + (((y0 >>> 3) &&& 7) <<< 5) + x / 8

/-- The address of the attribute byte of in-screen row `y0` and column `x`. -/
def attributeAddress (y0 x : Nat) : Nat := 0x5800 + y0 / 8 * 32 + x / 8

/-- The byte of scanline `y` at column `x` (0..351), in closed form. -/
def linePixel (context : Z80_CONTEXT) (y x : Nat) : Nat :=
  if y < 48 ∨ y ≥ 240 then context.border % 256
  else if x < 48 ∨ x ≥ 304 then context.border % 256
  else
    GetPixels.pixel (context.memory (0x4000 + (rowMap (y - 48) <<< 5) + (x - 48) / 8))
      (context.memory (0x5800 + (y - 48) / 8 * 32 + (x - 48) / 8))
      (flashPhase context.frame_counter) (7 - (x - 48) % 8)

/-- Modelled from the spec: the header `z80user.h` through which the engine reaches the
context is not part of the sources.  By the spec the engine "calls back into this
core's memory-read, memory-write, I/O-port-read and I/O-port-write operations",
owns the CPU state and can set the `done` flag; the reads change nothing, so one
step of the engine on the context is a memory write, a port write, a new CPU state
or a new `is_done`. -/
inductive EngineAction where
  | writeByte (address : Int) (b : Nat)
  | output (port value : Int)
  | setState (state : Z80_STATE)
  | setDone (is_done : Int)

/-- The context after one step of the engine. -/
def EngineAction.apply (context : Z80_CONTEXT) : EngineAction → Z80_CONTEXT
  | .writeByte address b => (WriteMemory context address b).1
  | .output port value => SystemOutput context port value
  | .setState state => { context with state := state }
  | .setDone is_done => { context with is_done := is_done }

/-- The engine touches the context only through its callbacks: the context a call
leaves is the context it received after finitely many steps. -/
def Engine.ViaCallbacks (eng : Engine) : Prop :=
  (∀ context data_on_bus, ∃ actions : List EngineAction,
    (eng.Z80Interrupt context data_on_bus).1 = actions.foldl EngineAction.apply context) ∧
  (∀ context number_cycles, ∃ actions : List EngineAction,
    (eng.Z80Emulate context number_cycles).1 = actions.foldl EngineAction.apply context)

/-- The machine states reachable from `CreateContext` through the exposed operations
and the callbacks of the engine. -/
inductive Reachable (eng : Engine) : Z80_CONTEXT → Prop where
  | create (fresh : Z80_CONTEXT) : Reachable eng (CreateContext eng fresh)
  | keyDown {c c' : Z80_CONTEXT} (k : Int) : Reachable eng c → KeyDown c k = some c' →
      Reachable eng c'
  | keyUp {c c' : Z80_CONTEXT} (k : Int) : Reachable eng c → KeyUp c k = some c' →
      Reachable eng c'
  | readMemory {c : Z80_CONTEXT} (offset : Int) : Reachable eng c →
      Reachable eng (ReadMemory c offset).1
  | writeMemory {c : Z80_CONTEXT} (offset : Int) (b : Nat) : Reachable eng c →
      Reachable eng (WriteMemory c offset b).1
  | load {c c' : Z80_CONTEXT} (fuel : Nat) (data : Nat → Nat) (length : Nat) :
      Reachable eng c → LoadZ80Format eng fuel c data length = some c' → Reachable eng c'
  | render {c : Z80_CONTEXT} (frame : Nat → Nat) (length : Int) : Reachable eng c →
      Reachable eng (RenderFrame eng c frame length).context
  | callback {c : Z80_CONTEXT} (action : EngineAction) : Reachable eng c →
      Reachable eng (action.apply c)
  | portRead {c : Z80_CONTEXT} (port : Int) : Reachable eng c →
      Reachable eng (SystemInput c port).1

/-- The frame schedule in the words of the spec: the context and the carry before
the `Execute` call of scanline `y`.  The frame begins with the interrupt, whose
cycles are the first carry; each scanline executes `224 - carry` cycles and
leaves as carry the cycles consumed minus 224. -/
def scanState (eng : Engine) (context : Z80_CONTEXT) : Nat → Z80_CONTEXT × Int
  | 0 => eng.Z80Interrupt context 0
  | y + 1 =>
    ((eng.Z80Emulate (scanState eng context y).1 (224 - (scanState eng context y).2)).1,
      (eng.Z80Emulate (scanState eng context y).1 (224 - (scanState eng context y).2)).2 - 224)

/-- The frame buffer after the first `y` scanlines: each scanline is rendered from
the context its `Execute` call left. -/
def paint (eng : Engine) (context : Z80_CONTEXT) (frame : Nat → Nat) : Nat → (Nat → Nat)
  | 0 => frame
  | y + 1 => CopyScreenLine (scanState eng context (y + 1)).1 y (paint eng context frame y)

/-- The cycles consumed by the `Execute` call of scanline `y`. -/
def ticks (eng : Engine) (context : Z80_CONTEXT) (y : Nat) : Int :=
  (eng.Z80Emulate (scanState eng context y).1 (224 - (scanState eng context y).2)).2

/-- The cycles consumed in one frame: those of the interrupt and those of the 312
`Execute` calls. -/
def cyclesConsumed (eng : Engine) (context : Z80_CONTEXT) : Int :=
  (eng.Z80Interrupt context 0).2 + ((List.range 312).map (ticks eng context)).sum

/-- The fields of the context a snapshot load determines: memory, keyboard, border,
ear, frame counter, done flag and the registers the loader assigns. -/
def loadedFields (c : Z80_CONTEXT) :
    (Nat → Nat) × (Nat → Nat) × Nat × Nat × Int × Int × List Nat :=
  (c.memory, c.keyboard, c.border, c.ear, c.frame_counter, c.is_done,
    [c.state.a, c.state.f, c.state.bc, c.state.hl, c.state.sp, c.state.de, c.state.pc,
     c.state.i, c.state.r, c.state.alt_bc, c.state.alt_de, c.state.alt_hl, c.state.alt_af,
     c.state.iy, c.state.ix, c.state.iff1, c.state.iff2, c.state.im])

/-! ## Example inputs -/

/-- A CPU state with every field zero. -/
def zeroState : Z80_STATE :=
  ⟨0, 0, 0, 0, 0, 0, 0, 0, 0, 0, 0, 0, 0, 0, 0, 0, 0, 0, 0⟩

/-- A machine in which key 0 of every half-row is held down (bit 0 clear). -/
def stateKeyHeld : Z80_CONTEXT :=
  { state := zeroState
    memory := fun _ => 0
    keyboard := fun _ => 0xFE
    border := 0
    ear := 0
    frame_counter := 0
    is_done := 0 }

/-- A buffer that holds the listed bytes; whatever follows it reads as zero. -/
def bufferOf (bytes : List Nat) : Nat → Nat := fun i => bytes.getD i 0 % 256

/-- An engine that does nothing, with an empty ROM image. -/
def nullEngine : Engine :=
  { Z80Reset := id
    Z80Interrupt := fun context _ => (context, 0)
    Z80Emulate := fun context number_cycles => (context, number_cycles)
    z80_rom := [] }

/-- A machine whose memory holds `0xAA` everywhere. -/
def stateFilled : Z80_CONTEXT :=
  { stateKeyHeld with memory := fun _ => 0xAA }

/-- A 30-byte snapshot header with the given PC bytes and flag byte 12. -/
def exampleHeader (pc_lo pc_hi byte12 : Nat) : List Nat :=
  [0x0A, 0x0F, 0x0C, 0x0B, 0x01, 0x02, pc_lo, pc_hi, 0xFE, 0xFF, 0x3F, 0x85, byte12, 0x0E, 0x0D,
   0x1C, 0x1B, 0x1E, 0x1D, 0x12, 0x11, 0x1A, 0x1F, 0x34, 0x12, 0x78, 0x56, 0x01, 0x00, 0x01]

/-- A classic snapshot with an uncompressed payload of three bytes. -/
def snapshotClassic : Nat → Nat :=
  bufferOf (exampleHeader 0x34 0x12 0x04 ++ [0xED, 0xED, 0x05])

/-- A compressed classic snapshot: a literal, a run, the end marker, one more byte. -/
def snapshotMarker : Nat → Nat :=
  bufferOf (exampleHeader 0x34 0x12 0x20 ++ [0x11, 0xED, 0xED, 0x03, 0x22, 0x00, 0xED, 0xED, 0x00, 0x99])

/-- An extended snapshot: a 2-byte extension header, a run-length block for page 8
and a raw block for page 5 (its 16384 bytes are `AA BB` and zeros). -/
def snapshotExtended : Nat → Nat :=
  bufferOf (exampleHeader 0 0 0 ++ [0x02, 0x00, 0x34, 0x12] ++
    [0x05, 0x00, 0x08, 0x11, 0xED, 0xED, 0x02, 0x22] ++ [0xFF, 0xFF, 0x05, 0xAA, 0xBB])

/-- An extended snapshot of 278 bytes whose first block (page 8) is the single byte
`ED` and whose second block (page 4) has length `0x00ED`: 236 zero bytes and a
final `01`. -/
def snapshotRunAcross : Nat → Nat :=
  fun i =>
    if i = 277 then 0x01
    else bufferOf (exampleHeader 0 0 0 ++ [0x02, 0x00, 0x34, 0x12] ++ [0x01, 0x00, 0x08, 0xED] ++
      [0xED, 0x00, 0x04]) i

/-- An extended snapshot with one block for page 8 whose data `00 ED ED 00 55 77` is
the literal `00`, an empty run and the literal `77`. -/
def snapshotMarkerInBlock : Nat → Nat :=
  bufferOf (exampleHeader 0 0 0 ++ [0x02, 0x00, 0x34, 0x12] ++
    [0x06, 0x00, 0x08, 0x00, 0xED, 0xED, 0x00, 0x55, 0x77])

/-- An extended snapshot whose extension header is 65535 bytes long: its only block
(length 1, page 8, byte `55`) starts at offset 65567, and the buffer is 65571 bytes. -/
def snapshotFarBlock : Nat → Nat :=
  fun i =>
    if i = 30 ∨ i = 31 then 0xFF
    else if i = 65567 then 0x01
    else if i = 65569 then 0x08
    else if i = 65570 then 0x55
    else 0

/-- A machine that has rendered five frames. -/
def stateFrame5 : Z80_CONTEXT :=
  { stateKeyHeld with frame_counter := 5 }

/-- A machine with border colour 5 whose screen is all ink: every bitmap byte is `FF`,
every attribute is ink 7 on paper 0. -/
def stateScreen : Z80_CONTEXT :=
  { stateKeyHeld with
    border := 5
    memory := fun a => if a < 0x5800 then 0xFF else 0x07 }

/-- An engine whose interrupt takes no cycle and whose every `Execute` call consumes
one cycle more than requested. -/
def overshootEngine : Engine :=
  { Z80Reset := id
    Z80Interrupt := fun context _ => (context, 0)
    Z80Emulate := fun context number_cycles => (context, number_cycles + 1)
    z80_rom := [] }

/-- An engine whose reset yields the same CPU state whatever the state before. -/
def resetEngine : Engine :=
  { nullEngine with Z80Reset := fun _ => zeroState }

/-- The first ten bytes of `snapshotClassic`, followed by zeros. -/
def snapshotTruncated : Nat → Nat :=
  fun i => if i < 10 then snapshotClassic i else 0

/-- The snapshot `snapshotRunAcross` with the length of its second block changed from
`0x00ED` to `0x00EC` (277 bytes in all). -/
def snapshotRunApart : Nat → Nat :=
  fun i =>
    if i = 276 then 0x01
    else bufferOf (exampleHeader 0 0 0 ++ [0x02, 0x00, 0x34, 0x12] ++ [0x01, 0x00, 0x08, 0xED] ++
      [0xEC, 0x00, 0x04]) i

/-- An extended snapshot of 38 bytes with one block for page 8 whose data is the
single byte `ED`; zeros follow the buffer. -/
def snapshotLastED : Nat → Nat :=
  bufferOf (exampleHeader 0 0 0 ++ [0x02, 0x00, 0x34, 0x12] ++ [0x01, 0x00, 0x08, 0xED])

/-- The same 38 bytes as `snapshotLastED`, with `ED 02 07` after the end of the buffer. -/
def snapshotLastEDFollowed : Nat → Nat :=
  bufferOf (exampleHeader 0 0 0 ++ [0x02, 0x00, 0x34, 0x12] ++ [0x01, 0x00, 0x08, 0xED] ++
    [0xED, 0x02, 0x07])

/-! # Properties -/

/-! ## Machine integers -/

theorem andMask_two_pow_sub_one (x : Int) (n : Nat) (hn : n ≤ 32) :
    andMask x (2 ^ n - 1) = (x % (2 ^ n : Nat)).toNat := by
  unfold andMask bits32
  rw [Nat.and_pow_two_sub_one_eq_mod]
  have hd : ((2 ^ n : Nat) : Int) ∣ 4294967296 := by
    have : (4294967296 : Int) = ((2 ^ n : Nat) : Int) * ((2 ^ (32 - n) : Nat) : Int) := by
      rw [← Nat.cast_mul, ← pow_add]
      have : n + (32 - n) = 32 := by omega
      rw [this]; norm_num
    exact Dvd.intro _ this.symm
  have h0 : (0 : Int) ≤ x % 4294967296 := Int.emod_nonneg _ (by norm_num)
  have h1 : (0 : Int) < ((2 ^ n : Nat) : Int) := by positivity
  have h2 : (0 : Int) ≤ x % ((2 ^ n : Nat) : Int) := Int.emod_nonneg _ (ne_of_gt h1)
  apply Int.ofNat_inj.mp
  rw [Int.toNat_of_nonneg h2]
  simp only [Int.ofNat_eq_coe, Int.natCast_mod]
  rw [Int.toNat_of_nonneg h0, Int.emod_emod_of_dvd _ hd]

theorem andMask_xFFFF (x : Int) : andMask x 0xFFFF = (x % 65536).toNat := by
  simpa using andMask_two_pow_sub_one x 16 (by norm_num)

theorem andMask_xFF (x : Int) : andMask x 0xFF = (x % 256).toNat := by
  simpa using andMask_two_pow_sub_one x 8 (by norm_num)

theorem andMask_7 (x : Int) : andMask x 7 = (x % 8).toNat := by
  simpa using andMask_two_pow_sub_one x 3 (by norm_num)

theorem andMask_x10 (x : Int) : andMask x 0x10 = 16 * (x / 16 % 2).toNat := by
  unfold andMask bits32
  have h := Nat.and_two_pow (x % 4294967296).toNat 4
  have h0 : (0 : Int) ≤ x % 4294967296 := Int.emod_nonneg _ (by norm_num)
  have e : (2 : Nat) ^ 4 = 16 := by norm_num
  rw [e] at h
  rw [h, Nat.testBit_to_div_mod, e]
  rcases Nat.mod_two_eq_zero_or_one ((x % 4294967296).toNat / 16) with hb | hb
  · rw [hb]; simp; omega
  · rw [hb]; simp; omega

theorem complement_eq (k : Int) : ~~~k = -k - 1 := by
  cases k with
  | ofNat n => show Int.negSucc n = _; rw [Int.negSucc_eq]; simp; omega
  | negSucc n => show Int.ofNat n = _; rw [Int.negSucc_eq]; simp

theorem shiftRight_8 (k : Int) : k >>> (8 : Nat) = k / 256 := by
  rw [Int.shiftRight_eq_div_pow]; norm_num

theorem testBit_byte_high (x : Nat) (h : x < 256) (i : Nat) (hi : 8 ≤ i) :
    x.testBit i = false := by
  apply Nat.testBit_lt_two_pow
  calc x < 2 ^ 8 := by norm_num; exact h
    _ ≤ 2 ^ i := Nat.pow_le_pow_right (by norm_num) hi

theorem foldl_filter_eq {α β : Type} (p : α → Bool) (f : β → α → β) (l : List α) (init : β) :
    (l.filter p).foldl f init = l.foldl (fun x y => if p y = true then f x y else x) init := by
  induction l generalizing init with
  | nil => rfl
  | cons a l ih =>
    rw [List.filter_cons]
    by_cases h : p a = true
    · simp only [h, if_true, List.foldl_cons]; exact ih _
    · simp only [h, if_false, List.foldl_cons]; exact ih _

/-! ## Memory peek and poke -/

/-- Claim C1: for every machine state, every `int` address `a` and every byte
`v`, `ReadMemory(a)` after `WriteMemory(a, v)` returns `v`, and so does
`ReadMemory(a)` after `WriteMemory(a + 65536, v)`; the read leaves the state as the
write left it. -/
theorem ReadMemory_WriteMemory (s : Z80_CONTEXT) (a : Int) (v : Nat) (hv : v < 256) :
    (ReadMemory (WriteMemory s a v).1 a).2 = (v : Int) ∧
    (ReadMemory (WriteMemory s (a + 65536) v).1 a).2 = (v : Int) ∧
    (ReadMemory (WriteMemory s a v).1 a).1 = (WriteMemory s a v).1 := by
  have h2 : andMask (a + 65536) 0xFFFF = andMask a 0xFFFF := by
    rw [andMask_xFFFF, andMask_xFFFF]; omega
  simp [ReadMemory, WriteMemory, setByte, h2, Nat.mod_eq_of_lt hv]

theorem ReadMemory_WriteMemory_witness :
    (ReadMemory (WriteMemory stateKeyHeld (-1) 7).1 (-1)).2 = ((7 : Nat) : Int) ∧
    (ReadMemory (WriteMemory stateKeyHeld (-1 + 65536) 7).1 (-1)).2 = ((7 : Nat) : Int) ∧
    (ReadMemory (WriteMemory stateKeyHeld (-1) 7).1 (-1)).1
      = (WriteMemory stateKeyHeld (-1) 7).1 :=
  ReadMemory_WriteMemory stateKeyHeld (-1) 7 (by decide)

/-! ## Frame scheduler: undersized buffer -/

/-- The value of an `int` expression whose exact result is an `int`. -/
theorem wrap32_eq (x : Int) (hlo : -2147483648 ≤ x) (hhi : x ≤ 2147483647) : wrap32 x = x := by
  unfold wrap32
  omega

/-- Claim C2: for every machine state and every buffer length `L < 109824` for which
`109824 - L` is an `int` (`L` above `109824 - 2^31`, so every non-negative length and
the negative ones down to `-2147373823`), `RenderFrame` returns `109824 - L`, makes no
call into the CPU engine, leaves the buffer as it was and leaves the machine state
(so also `frame_counter`) unchanged, whatever the engine is. -/
theorem RenderFrame_short_buffer (eng : Engine) (s : Z80_CONTEXT) (frame : Nat → Nat)
    (L : Int) (h : L < 109824) (hlo : -2147373824 < L) :
    RenderFrame eng s frame L =
      { ret := 109824 - L, context := s, frame := frame, calls := [] } := by
  have hw : wrap32 (109824 - L) = 109824 - L := wrap32_eq _ (by omega) (by omega)
  simp [RenderFrame, h, hw]

theorem RenderFrame_short_buffer_witness :
    RenderFrame nullEngine stateKeyHeld (fun _ => 0) (-5) =
      { ret := 109824 - (-5), context := stateKeyHeld, frame := fun _ => 0, calls := [] } :=
  RenderFrame_short_buffer nullEngine stateKeyHeld (fun _ => 0) (-5) (by decide) (by decide)

/-! ## Keyboard matrix -/

theorem press_release_byte (kb m : Nat) (hkb : kb < 256) (hm : m < 256) :
    ((kb &&& ((255 - m) % 256)) % 256 ||| (m % 256)) % 256 = kb ||| m := by
  have h1 : (255 - m) % 256 = 2 ^ 8 - (m + 1) := by norm_num; omega
  have h2 : kb &&& (2 ^ 8 - (m + 1)) < 256 := lt_of_le_of_lt Nat.and_le_left hkb
  have h3 : (kb &&& (2 ^ 8 - (m + 1))) ||| m < 2 ^ 8 :=
    Nat.or_lt_two_pow (by simpa using h2) (by simpa using hm)
  rw [h1, Nat.mod_eq_of_lt h2, Nat.mod_eq_of_lt hm, Nat.mod_eq_of_lt (by simpa using h3)]
  apply Nat.eq_of_testBit_eq
  intro i
  rw [Nat.testBit_or, Nat.testBit_and, Nat.testBit_two_pow_sub_succ (by simpa using hm),
    Nat.testBit_or]
  by_cases hi : i < 8
  · simp [hi]; cases kb.testBit i <;> cases m.testBit i <;> rfl
  · simp [hi, testBit_byte_high m hm i (by omega), testBit_byte_high kb hkb i (by omega)]

theorem or_eq_left_iff_and (kb m : Nat) : kb ||| m = kb ↔ kb &&& m = m := by
  constructor
  · intro h
    apply Nat.eq_of_testBit_eq
    intro i
    have := congrArg (fun x => x.testBit i) h
    simp only [Nat.testBit_or] at this
    rw [Nat.testBit_and]
    cases hk : kb.testBit i <;> cases hm : m.testBit i <;> simp_all
  · intro h
    apply Nat.eq_of_testBit_eq
    intro i
    have := congrArg (fun x => x.testBit i) h
    simp only [Nat.testBit_and] at this
    rw [Nat.testBit_or]
    cases hk : kb.testBit i <;> cases hm : m.testBit i <;> simp_all

theorem KeyDown_in_range (s : Z80_CONTEXT) (k : Int)
    (h0 : 0 ≤ k >>> (8 : Nat)) (h8 : k >>> (8 : Nat) < 8) :
    KeyDown s k = some { s with
      keyboard := setByte s.keyboard (k >>> (8 : Nat)).toNat
        ((s.keyboard (k >>> (8 : Nat)).toNat &&& ((255 - (k % 256).toNat) % 256)) % 256) } := by
  have hg : ¬ (k >>> (8 : Nat) ≥ 8) := by omega
  have hb : inBounds (k >>> (8 : Nat)) 8 = true := by
    simp [inBounds, h0]; omega
  have hnot : andMask (~~~k) 0xFF = 255 - (k % 256).toNat := by
    rw [andMask_xFF, complement_eq]; omega
  simp only [KeyDown, hg, hb, if_true, if_false, hnot]

theorem KeyUp_in_range (s : Z80_CONTEXT) (k : Int)
    (h0 : 0 ≤ k >>> (8 : Nat)) (h8 : k >>> (8 : Nat) < 8) :
    KeyUp s k = some { s with
      keyboard := setByte s.keyboard (k >>> (8 : Nat)).toNat
        ((s.keyboard (k >>> (8 : Nat)).toNat ||| ((k % 256).toNat % 256)) % 256) } := by
  have hg : ¬ (k >>> (8 : Nat) ≥ 8) := by omega
  have hb : inBounds (k >>> (8 : Nat)) 8 = true := by
    simp [inBounds, h0]; omega
  simp only [KeyUp, hg, hb, if_true, if_false, andMask_xFF]

/-- Claim C3, as the code has it: for every keyboard state and every key code `k`
whose half-row `k >> 8` is in `0..7`, `KeyDown(k)` followed by `KeyUp(k)` succeeds,
changes nothing but `keyboard[k >> 8]`, and leaves there the pre-press byte OR-ed
with the mask `k & 0xFF`; so the pre-press keyboard is restored exactly if and
only if every key of the mask was released (bit set) before the press. -/
theorem KeyDown_KeyUp_keyboard (s : Z80_CONTEXT) (k : Int)
    (hkb : ∀ j, j < 8 → s.keyboard j < 256)
    (h0 : 0 ≤ k >>> (8 : Nat)) (h8 : k >>> (8 : Nat) < 8) :
    ∃ s2, (KeyDown s k).bind (fun s1 => KeyUp s1 k) = some s2 ∧
      s2.state = s.state ∧ s2.memory = s.memory ∧ s2.border = s.border ∧ s2.ear = s.ear ∧
      s2.frame_counter = s.frame_counter ∧ s2.is_done = s.is_done ∧
      s2.keyboard (k >>> (8 : Nat)).toNat
        = s.keyboard (k >>> (8 : Nat)).toNat ||| (k % 256).toNat ∧
      (∀ i, i ≠ (k >>> (8 : Nat)).toNat → s2.keyboard i = s.keyboard i) ∧
      ((∀ i, i < 8 → s2.keyboard i = s.keyboard i) ↔
        s.keyboard (k >>> (8 : Nat)).toNat &&& (k % 256).toNat = (k % 256).toNat) := by
  have hrow : (k >>> (8 : Nat)).toNat < 8 := by omega
  have hm : (k % 256).toNat < 256 := by omega
  have hval := press_release_byte (s.keyboard (k >>> (8 : Nat)).toNat) (k % 256).toNat
    (hkb _ hrow) hm
  rw [KeyDown_in_range s k h0 h8]
  simp only [Option.bind]
  rw [KeyUp_in_range _ k h0 h8]
  refine ⟨_, rfl, rfl, rfl, rfl, rfl, rfl, rfl, ?_, ?_, ?_⟩
  · simp only [setByte, if_true]
    exact hval
  · intro i hi
    simp [setByte, hi]
  · simp only [setByte, if_true]
    rw [← or_eq_left_iff_and]
    constructor
    · intro h
      have := h _ hrow
      simp only [if_true] at this
      rw [hval] at this
      exact this
    · intro h i _
      by_cases hi : i = (k >>> (8 : Nat)).toNat
      · subst hi
        simp only [if_true]
        rw [hval]; exact h
      · simp [hi]

theorem KeyDown_KeyUp_keyboard_witness :
    ∃ s2, (KeyDown stateKeyHeld 0x502).bind (fun s1 => KeyUp s1 0x502) = some s2 ∧
      s2.state = stateKeyHeld.state ∧ s2.memory = stateKeyHeld.memory ∧
      s2.border = stateKeyHeld.border ∧ s2.ear = stateKeyHeld.ear ∧
      s2.frame_counter = stateKeyHeld.frame_counter ∧ s2.is_done = stateKeyHeld.is_done ∧
      s2.keyboard 5 = 0xFE ||| 2 ∧
      (∀ i, i ≠ 5 → s2.keyboard i = stateKeyHeld.keyboard i) ∧
      ((∀ i, i < 8 → s2.keyboard i = stateKeyHeld.keyboard i) ↔ 0xFE &&& 2 = 2) :=
  KeyDown_KeyUp_keyboard stateKeyHeld 0x502 (fun _ _ => (by decide : (0xFE : Nat) < 256))
    (by decide) (by decide)

/-- Claim C3 as stated fails: with key 0 of half-row 0 already held
(`keyboard[0] = 0xFE`), `KeyDown(0x001); KeyUp(0x001)` leaves `keyboard[0] = 0xFF`. -/
theorem KeyDown_KeyUp_held_key :
    ((KeyDown stateKeyHeld 0x001).bind (fun s1 => KeyUp s1 0x001)).map (fun s2 => s2.keyboard 0)
      = some 0xFF ∧ stateKeyHeld.keyboard 0 = 0xFE := by
  decide

/-- Claim C4 at `k = -1`: the half-row `k >> 8 = -1` is not in `0..7`, the guard
`(k >> 8) >= 8` does not fire, and both `KeyDown` and `KeyUp` go on to access
`keyboard[-1]`, outside the array. -/
theorem KeyDown_KeyUp_negative_row (s : Z80_CONTEXT) :
    (-1 : Int) >>> (8 : Nat) = -1 ∧ KeyDown s (-1) = none ∧ KeyUp s (-1) = none := by
  refine ⟨by decide, rfl, rfl⟩

/-- Every negative key code takes `KeyDown` and `KeyUp` to an index below the array. -/
theorem KeyDown_KeyUp_below_zero (s : Z80_CONTEXT) (k : Int) (h : k < 0) :
    KeyDown s k = none ∧ KeyUp s k = none := by
  have h8 : k >>> (8 : Nat) < 0 := by rw [shiftRight_8]; omega
  have hg : ¬ (k >>> (8 : Nat) ≥ 8) := by omega
  have hb : inBounds (k >>> (8 : Nat)) 8 = false := by
    simp [inBounds]; intro h0; omega
  simp [KeyDown, KeyUp, hg, hb]

/-- A half-row of 8 or more is ignored by `KeyDown` and `KeyUp`. -/
theorem KeyDown_KeyUp_high_row (s : Z80_CONTEXT) (k : Int) (h : 8 ≤ k >>> (8 : Nat)) :
    KeyDown s k = some s ∧ KeyUp s k = some s := by
  simp [KeyDown, KeyUp, h]

/-! ## Ports -/

theorem SystemInput.select_eq (h : Nat) (kb : Nat → Nat) (r i : Nat) (hr : r < 256) :
    SystemInput.select h kb r i = andSelected.step h kb r i ∧ andSelected.step h kb r i < 256 := by
  have hlt : r &&& kb i < 256 := lt_of_le_of_lt Nat.and_le_left hr
  unfold SystemInput.select andSelected.step
  rw [Nat.and_two_pow]
  cases hb : h.testBit i
  · simp [Nat.mod_eq_of_lt hlt, hlt]
  · simp [hr]

theorem andSelected_unfold (kb : Nat → Nat) (h : Nat) :
    andSelected kb h = [0, 1, 2, 3, 4, 5, 6, 7].foldl (andSelected.step h kb) 0xFF := by
  unfold andSelected
  rw [foldl_filter_eq]
  rfl

theorem SystemInput_chain (s : Z80_CONTEXT) (port : Int) (hl : ¬ (andMask port 0xFF ≠ 0xFE)) :
    (SystemInput s port).2 =
      [0, 1, 2, 3, 4, 5, 6, 7].foldl
        (SystemInput.select (andMask (port >>> (8 : Nat)) 0xFF % 256) s.keyboard) 0xFF := by
  unfold SystemInput
  rw [if_neg hl]
  rfl

theorem SystemInput_andSelected (s : Z80_CONTEXT) (port : Int) :
    (SystemInput s port).1 = s ∧
    (port % 256 = 0xFE →
      (SystemInput s port).2 = andSelected s.keyboard (port / 256 % 256).toNat) ∧
    (port % 256 ≠ 0xFE → (SystemInput s port).2 = 0xFF) := by
  have hlow : andMask port 0xFF = 0xFE ↔ port % 256 = 0xFE := by
    rw [andMask_xFF]; omega
  have hhigh : andMask (port >>> (8 : Nat)) 0xFF % 256 = (port / 256 % 256).toNat := by
    rw [andMask_xFF, shiftRight_8]; omega
  refine ⟨?_, ?_, ?_⟩
  · unfold SystemInput; split <;> rfl
  · intro hp
    have hl : ¬ (andMask port 0xFF ≠ 0xFE) := by simpa using hlow.mpr hp
    rw [SystemInput_chain s port hl, andSelected_unfold, hhigh]
    generalize (port / 256 % 256).toNat = h
    have e0 := SystemInput.select_eq h s.keyboard 0xFF 0 (by norm_num)
    have e1 := SystemInput.select_eq h s.keyboard _ 1 e0.2
    have e2 := SystemInput.select_eq h s.keyboard _ 2 e1.2
    have e3 := SystemInput.select_eq h s.keyboard _ 3 e2.2
    have e4 := SystemInput.select_eq h s.keyboard _ 4 e3.2
    have e5 := SystemInput.select_eq h s.keyboard _ 5 e4.2
    have e6 := SystemInput.select_eq h s.keyboard _ 6 e5.2
    have e7 := SystemInput.select_eq h s.keyboard _ 7 e6.2
    simp only [List.foldl]
    rw [e0.1, e1.1, e2.1, e3.1, e4.1, e5.1, e6.1, e7.1]
  · intro hp
    have hl : andMask port 0xFF ≠ 0xFE := fun h => hp (hlow.mp h)
    unfold SystemInput
    rw [if_pos hl]

theorem andSelected_all (kb : Nat → Nat) (hkb : ∀ j, j < 8 → kb j < 256) :
    andSelected kb 0 = kb 0 &&& kb 1 &&& kb 2 &&& kb 3 &&& kb 4 &&& kb 5 &&& kb 6 &&& kb 7 := by
  rw [andSelected_unfold]
  simp only [List.foldl, andSelected.step, Nat.zero_testBit, Bool.not_false, if_true]
  have : 255 &&& kb 0 = kb 0 := by
    have h := Nat.and_pow_two_sub_one_eq_mod (kb 0) 8
    rw [Nat.and_comm] at h
    simpa [Nat.mod_eq_of_lt (hkb 0 (by norm_num))] using h
  rw [this]

theorem andSelected_none (kb : Nat → Nat) : andSelected kb 0xFF = 0xFF := by
  rw [andSelected_unfold]
  simp only [List.foldl, andSelected.step]
  have h : ∀ i, i < 8 → Nat.testBit 255 i = true := by decide
  simp [h]

/-- Claim C5: for every keyboard state (of bytes) and every port number,
`SystemInput` changes no state; if the low byte of the port is `0xFE` it returns
the bitwise AND of exactly the half-rows `keyboard[i]`, `i` in `0..7`, whose bit `i`
is clear in the high byte of the port, which is the AND of all eight half-rows
when the high byte is `0x00` and `0xFF` when the high byte is `0xFF`; if the low
byte is not `0xFE` it returns `0xFF`. -/
theorem SystemInput_keyboard_and (s : Z80_CONTEXT) (port : Int)
    (hkb : ∀ j, j < 8 → s.keyboard j < 256) :
    (SystemInput s port).1 = s ∧
    (port % 256 = 0xFE →
      (SystemInput s port).2 = andSelected s.keyboard (port / 256 % 256).toNat) ∧
    (port % 256 = 0xFE → port / 256 % 256 = 0x00 →
      (SystemInput s port).2 =
        s.keyboard 0 &&& s.keyboard 1 &&& s.keyboard 2 &&& s.keyboard 3 &&&
          s.keyboard 4 &&& s.keyboard 5 &&& s.keyboard 6 &&& s.keyboard 7) ∧
    (port % 256 = 0xFE → port / 256 % 256 = 0xFF → (SystemInput s port).2 = 0xFF) ∧
    (port % 256 ≠ 0xFE → (SystemInput s port).2 = 0xFF) := by
  obtain ⟨h1, h2, h3⟩ := SystemInput_andSelected s port
  refine ⟨h1, h2, ?_, ?_, h3⟩
  · intro hp hh
    rw [h2 hp, hh]
    exact andSelected_all s.keyboard hkb
  · intro hp hh
    rw [h2 hp, hh]
    exact andSelected_none s.keyboard

theorem SystemInput_keyboard_and_witness :
    (SystemInput stateKeyHeld 0xFBFE).2 = andSelected stateKeyHeld.keyboard 0xFB ∧
    (SystemInput stateKeyHeld 0x00FE).2 =
      stateKeyHeld.keyboard 0 &&& stateKeyHeld.keyboard 1 &&& stateKeyHeld.keyboard 2 &&&
        stateKeyHeld.keyboard 3 &&& stateKeyHeld.keyboard 4 &&& stateKeyHeld.keyboard 5 &&&
        stateKeyHeld.keyboard 6 &&& stateKeyHeld.keyboard 7 ∧
    (SystemInput stateKeyHeld 0xFFFE).2 = 0xFF ∧
    (SystemInput stateKeyHeld 0xFBFF).2 = 0xFF :=
  ⟨(SystemInput_keyboard_and stateKeyHeld 0xFBFE
      (fun _ _ => (by decide : (0xFE : Nat) < 256))).2.1 (by decide),
    (SystemInput_keyboard_and stateKeyHeld 0x00FE
      (fun _ _ => (by decide : (0xFE : Nat) < 256))).2.2.1 (by decide) (by decide),
    (SystemInput_keyboard_and stateKeyHeld 0xFFFE
      (fun _ _ => (by decide : (0xFE : Nat) < 256))).2.2.2.1 (by decide) (by decide),
    (SystemInput_keyboard_and stateKeyHeld 0xFBFF
      (fun _ _ => (by decide : (0xFE : Nat) < 256))).2.2.2.2 (by decide)⟩

/-- Claim C6, as the code has it: a `SystemOutput` to a port whose low byte is
`0xFE` sets `border` to the low 3 bits of the value and `ear` to `value & 0x10`,
that is bit 4 of the value left in place (0 or 16), and changes nothing else; a
`SystemOutput` to any other port leaves the whole machine state unchanged. -/
theorem SystemOutput_border_ear (s : Z80_CONTEXT) (port value : Int) :
    (port % 256 = 0xFE →
      SystemOutput s port value =
        { s with border := (value % 8).toNat, ear := 16 * (value / 16 % 2).toNat }) ∧
    (port % 256 ≠ 0xFE → SystemOutput s port value = s) := by
  have hlow : andMask port 0xFF = 0xFE ↔ port % 256 = 0xFE := by
    rw [andMask_xFF]; omega
  constructor
  · intro hp
    have hl : ¬ (andMask port 0xFF ≠ 0xFE) := by simpa using hlow.mpr hp
    have h7 : (value % 8).toNat % 256 = (value % 8).toNat := by omega
    have h16 : 16 * (value / 16 % 2).toNat % 256 = 16 * (value / 16 % 2).toNat := by omega
    unfold SystemOutput
    rw [if_neg hl, andMask_7, andMask_x10, h7, h16]
  · intro hp
    have hl : andMask port 0xFF ≠ 0xFE := fun h => hp (hlow.mp h)
    unfold SystemOutput
    rw [if_pos hl]

theorem SystemOutput_border_ear_witness :
    SystemOutput stateKeyHeld 0x00FE 0x15 =
        { stateKeyHeld with border := ((0x15 : Int) % 8).toNat,
                            ear := 16 * ((0x15 : Int) / 16 % 2).toNat } ∧
    SystemOutput stateKeyHeld 0x00FF 0x15 = stateKeyHeld :=
  ⟨(SystemOutput_border_ear stateKeyHeld 0x00FE 0x15).1 (by decide),
    (SystemOutput_border_ear stateKeyHeld 0x00FF 0x15).2 (by decide)⟩

/-- Claim C6 as stated fails: writing `0x10` to port `0xFE` leaves `ear = 16`,
while bit 4 of the value, as a 1-bit value, is 1. -/
theorem SystemOutput_ear_sixteen :
    (SystemOutput stateKeyHeld 0xFE 0x10).ear = 16 ∧ ((0x10 : Int) / 16 % 2).toNat = 1 := by
  decide

/-! ## Snapshot loader -/

theorem bufferOf_lt (bytes : List Nat) (i : Nat) : bufferOf bytes i < 256 :=
  Nat.mod_lt _ (by decide)

theorem writeSeq_append (memory : Nat → Nat) (offset : Nat) (xs ys : List Nat) :
    writeSeq memory offset (xs ++ ys)
      = writeSeq (writeSeq memory offset xs).1 (writeSeq memory offset xs).2 ys := by
  induction xs generalizing memory offset with
  | nil => rfl
  | cons x xs ih => simp only [List.cons_append, writeSeq]; exact ih _ _

theorem writeSeq_snd (memory : Nat → Nat) (offset : Nat) (bs : List Nat) (h : offset < 65536) :
    (writeSeq memory offset bs).2 = (offset + bs.length) % 65536 := by
  induction bs generalizing memory offset with
  | nil => simp [writeSeq, Nat.mod_eq_of_lt h]
  | cons b bs ih =>
    simp only [writeSeq, List.length_cons]
    rw [ih _ _ (Nat.mod_lt _ (by norm_num))]
    omega

theorem writeSeq_snd_lt (memory : Nat → Nat) (offset : Nat) (bs : List Nat) (h : offset < 65536) :
    (writeSeq memory offset bs).2 < 65536 := by
  rw [writeSeq_snd _ _ _ h]; exact Nat.mod_lt _ (by norm_num)

theorem writeSeq_other (memory : Nat → Nat) (offset : Nat) (bs : List Nat) (a : Nat)
    (h : offset < 65536) (ha : ∀ j, j < bs.length → a ≠ (offset + j) % 65536) :
    (writeSeq memory offset bs).1 a = memory a := by
  induction bs generalizing memory offset with
  | nil => rfl
  | cons b bs ih =>
    simp only [writeSeq]
    rw [ih _ _ (Nat.mod_lt _ (by norm_num))]
    · have h0 := ha 0 (by simp)
      simp only [Nat.add_zero, Nat.mod_eq_of_lt h] at h0
      simp [setByte, h0]
    · intro j hj
      have := ha (j + 1) (by simp; omega)
      omega

theorem writeSeq_get (memory : Nat → Nat) (offset : Nat) (bs : List Nat) (j : Nat)
    (h : offset < 65536) (hlen : bs.length ≤ 65536) (hj : j < bs.length) :
    (writeSeq memory offset bs).1 ((offset + j) % 65536) = bs.getD j 0 := by
  induction bs generalizing memory offset j with
  | nil => simp at hj
  | cons b bs ih =>
    simp only [List.length_cons] at hlen hj
    simp only [writeSeq]
    cases j with
    | zero =>
      rw [writeSeq_other _ _ _ _ (Nat.mod_lt _ (by norm_num))]
      · simp [setByte, Nat.mod_eq_of_lt h]
      · intro j hj2; omega
    | succ j =>
      have e : (offset + (j + 1)) % 65536 = ((offset + 1) % 65536 + j) % 65536 := by omega
      rw [e, ih _ _ _ (Nat.mod_lt _ (by norm_num)) (by omega) (by omega)]
      simp

theorem slice_length (data : Nat → Nat) (start count : Nat) :
    (slice data start count).length = count := by
  induction count generalizing start with
  | zero => rfl
  | succ n ih => simp [slice, ih]

theorem slice_getD (data : Nat → Nat) (start count j : Nat) (hj : j < count) :
    (slice data start count).getD j 0 = data (start + j) := by
  induction count generalizing start j with
  | zero => omega
  | succ n ih =>
    cases j with
    | zero => simp [slice]
    | succ j =>
      simp only [slice, List.getD_cons_succ]
      rw [ih _ _ (by omega)]
      congr 1; omega

theorem UnpackMem.fill_eq (value : Nat) (n : Nat) (memory : Nat → Nat) (offset : Nat) :
    UnpackMem.fill value n memory offset = writeSeq memory offset (List.replicate n value) := by
  induction n generalizing memory offset with
  | zero => rfl
  | succ n ih => simp only [UnpackMem.fill, List.replicate_succ, writeSeq]; exact ih _ _

theorem UnpackMem.loop_done (data : Nat → Nat) (end_ c fuel i : Nat) (memory : Nat → Nat)
    (offset : Nat) (h : end_ ≤ i) :
    UnpackMem.loop data end_ c fuel i memory offset = (memory, offset) := by
  cases fuel with
  | zero => rfl
  | succ f => simp [UnpackMem.loop, Nat.not_lt.mpr h]

theorem UnpackMem.loop_marker (data : Nat → Nat) (end_ c fuel i : Nat) (memory : Nat → Nat)
    (offset : Nat) (hc : c ≠ 0) (h : marker data i) :
    UnpackMem.loop data end_ c fuel i memory offset = (memory, offset) := by
  cases fuel with
  | zero => rfl
  | succ f =>
    unfold marker at h
    simp [UnpackMem.loop, hc, h]

/-- The result of the `for` loop of `UnpackMem` does not depend on the fuel, as soon as
there is one unit per remaining source byte: the loop never stops for lack of fuel. -/
theorem UnpackMem.loop_fuel (data : Nat → Nat) (end_ c : Nat) :
    ∀ (fuel fuel' i : Nat) (memory : Nat → Nat) (offset : Nat),
      end_ - i ≤ fuel → end_ - i ≤ fuel' →
      UnpackMem.loop data end_ c fuel i memory offset
        = UnpackMem.loop data end_ c fuel' i memory offset := by
  intro fuel
  induction fuel with
  | zero =>
    intro fuel' i memory offset h _
    rw [UnpackMem.loop_done _ _ _ _ _ _ _ (by omega), UnpackMem.loop_done _ _ _ _ _ _ _ (by omega)]
  | succ f ih =>
    intro fuel' i memory offset h h'
    by_cases hi : i < end_
    · cases fuel' with
      | zero => omega
      | succ f' =>
        rw [UnpackMem.loop, UnpackMem.loop, if_pos hi, if_pos hi]
        split
        · rfl
        · split
          · exact ih _ _ _ _ (by omega) (by omega)
          · exact ih _ _ _ _ (by omega) (by omega)
    · rw [UnpackMem.loop_done _ _ _ _ _ _ _ (by omega), UnpackMem.loop_done _ _ _ _ _ _ _ (by omega)]

theorem UnpackMem.loop_scans (data : Nat → Nat) (end_ c : Nat) (hc : c ≠ 0) :
    ∀ (toks : List Token) (fuel i : Nat) (memory : Nat → Nat) (offset : Nat),
      Scans data i toks → i + sizeAll toks ≤ end_ → end_ - i ≤ fuel →
      ∃ fuel', end_ - (i + sizeAll toks) ≤ fuel' ∧
        UnpackMem.loop data end_ c fuel i memory offset
          = UnpackMem.loop data end_ c fuel' (i + sizeAll toks)
              (writeSeq memory offset (expandAll toks)).1
              (writeSeq memory offset (expandAll toks)).2 := by
  intro toks
  induction toks with
  | nil =>
    intro fuel i memory offset _ _ hf
    exact ⟨fuel, by simpa [sizeAll] using hf, by simp [sizeAll, expandAll, writeSeq]⟩
  | cons t ts ih =>
    intro fuel i memory offset hs hle hf
    obtain ⟨hm, hat, hrest⟩ := hs
    have hsz : 1 ≤ t.size := by cases t <;> simp [Token.size]
    simp only [sizeAll] at hle
    have hi : i < end_ := by omega
    cases fuel with
    | zero => omega
    | succ f =>
      have hm' : ¬ (c ≠ 0 ∧ data (i + 0) = 0x00 ∧ data (i + 1) = 0xED ∧
          data (i + 2) = 0xED ∧ data (i + 3) = 0x00) := by
        intro hh; exact hm ⟨by simpa using hh.2.1, hh.2.2.1, hh.2.2.2.1, hh.2.2.2.2⟩
      cases t with
      | run n v =>
        obtain ⟨h0, h1, h2, h3⟩ := hat
        have hrun : data i = 0xED ∧ data (i + 1) = 0xED ∧ c ≠ 0 := ⟨h0, h1, hc⟩
        obtain ⟨fuel', hf', heq⟩ := ih f (i + 4)
          (writeSeq memory offset (List.replicate n v)).1
          (writeSeq memory offset (List.replicate n v)).2 hrest (by simp [Token.size] at hle; omega) (by omega)
        refine ⟨fuel', ?_, ?_⟩
        · simp only [sizeAll, Token.size]; omega
        · rw [UnpackMem.loop, if_pos hi, if_neg hm', if_pos hrun]
          simp only [h2, h3, UnpackMem.fill_eq]
          rw [heq]
          simp only [sizeAll, Token.size, expandAll, Token.expand, writeSeq_append]
          congr 1; omega
      | lit b =>
        obtain ⟨h0, hn⟩ := hat
        have hrun : ¬ (data i = 0xED ∧ data (i + 1) = 0xED ∧ c ≠ 0) := by
          intro hh; exact hn ⟨hh.1, hh.2.1⟩
        obtain ⟨fuel', hf', heq⟩ := ih f (i + 1)
          (setByte memory offset (data i)) ((offset + 1) % 65536) hrest
          (by simp [Token.size] at hle; omega) (by omega)
        refine ⟨fuel', ?_, ?_⟩
        · simp only [sizeAll, Token.size]; omega
        · rw [UnpackMem.loop, if_pos hi, if_neg hm', if_neg hrun]
          rw [heq]
          simp only [sizeAll, Token.size, expandAll, Token.expand, h0, List.singleton_append, writeSeq]
          congr 1; omega

theorem UnpackMem.loop_raw (data : Nat → Nat) :
    ∀ (n fuel i : Nat) (memory : Nat → Nat) (offset : Nat), n ≤ fuel →
      UnpackMem.loop data (i + n) 0 fuel i memory offset = writeSeq memory offset (slice data i n) := by
  intro n
  induction n with
  | zero =>
    intro fuel i memory offset _
    rw [UnpackMem.loop_done _ _ _ _ _ _ _ (by omega)]
    rfl
  | succ n ih =>
    intro fuel i memory offset hf
    cases fuel with
    | zero => omega
    | succ f =>
      have e : i + (n + 1) = (i + 1) + n := by omega
      rw [UnpackMem.loop, if_pos (by omega), if_neg (by simp), if_neg (by simp)]
      rw [e, ih f (i + 1) _ _ (by omega)]
      rfl

theorem LoadZ80Format_eq (eng : Engine) (fuel : Nat) (s : Z80_CONTEXT) (data : Nat → Nat)
    (length : Nat) :
    LoadZ80Format eng fuel s data length =
      if READWORD data 6 = 0 then ReadV2Format fuel (LoadZ80Format.header eng s data) data length
      else some (UnpackMem (LoadZ80Format.header eng s data) 0x4000 data 30 length
        (if LoadZ80Format.bitinfo data &&& 32 ≠ 0 then 1 else 0)).1 := rfl

theorem or_shiftLeft_8 (a b : Nat) (ha : a < 256) : a ||| (b <<< 8) = a + 256 * b := by
  have h := Nat.mul_add_lt_is_or (i := 8) (b := a) (by norm_num; exact ha) b
  rw [Nat.shiftLeft_eq, Nat.or_comm, Nat.mul_comm b, ← h]; norm_num; omega

theorem READWORD_eq_leWord (data : Nat → Nat) (k : Nat) (hb : ∀ i, data i < 256)
    (hk : k + 1 < 65536) : READWORD data k = leWord data k := by
  unfold READWORD leWord
  rw [Nat.mod_eq_of_lt (by omega), Nat.mod_eq_of_lt hk, or_shiftLeft_8 _ _ (hb k)]

theorem refresh_register (d b : Nat) :
    ((d &&& 127) ||| (b <<< 7)) % 256 = (d &&& 0x7F) ||| ((b % 2) <<< 7) := by
  have hx : d &&& 127 < 2 ^ 7 := Nat.and_lt_two_pow d (by norm_num)
  have h1 := Nat.mul_add_lt_is_or hx b
  have h2 := Nat.mul_add_lt_is_or hx (b % 2)
  rw [Nat.shiftLeft_eq, Nat.shiftLeft_eq, Nat.or_comm, Nat.mul_comm b, ← h1,
    Nat.or_comm, Nat.mul_comm (b % 2), ← h2]
  norm_num at hx ⊢
  omega

theorem UnpackMem_raw (context : Z80_CONTEXT) (offset : Nat) (data : Nat → Nat) (start n : Nat) :
    UnpackMem context offset data start (start + n) 0 =
      ({ context with memory := (writeSeq context.memory (offset % 65536) (slice data start n)).1 },
        (writeSeq context.memory (offset % 65536) (slice data start n)).2) := by
  unfold UnpackMem
  rw [UnpackMem.loop_raw data n _ start _ _ (by omega)]

theorem UnpackMem_scans (context : Z80_CONTEXT) (offset : Nat) (data : Nat → Nat)
    (start end_ c : Nat) (toks : List Token) (hc : c ≠ 0) (hs : Scans data start toks)
    (hend : start + sizeAll toks ≤ end_)
    (hstop : start + sizeAll toks = end_ ∨ marker data (start + sizeAll toks)) :
    UnpackMem context offset data start end_ c =
      ({ context with memory := (writeSeq context.memory (offset % 65536) (expandAll toks)).1 },
        (writeSeq context.memory (offset % 65536) (expandAll toks)).2) := by
  unfold UnpackMem
  obtain ⟨fuel', _, heq⟩ := UnpackMem.loop_scans data end_ c hc toks (end_ - start) start
    context.memory (offset % 65536) hs hend (le_refl _)
  rw [heq]
  rcases hstop with h | h
  · rw [UnpackMem.loop_done _ _ _ _ _ _ _ (by omega)]
  · rw [UnpackMem.loop_marker _ _ _ _ _ _ _ hc h]

/-- What `UnpackMem` does on the inputs where its look-ahead finds nothing past
`end`: for every compressed region `[start, end)` that the scan reads as a sequence
of tokens ending at `end` (at no token position does `00 ED ED 00` start, a token is a
run `ED ED n v` where the two bytes are `ED ED` and the literal byte otherwise, the
look-ahead being on the buffer also past `end`), `UnpackMem` stores from `offset` on
(indices modulo 65536) exactly the concatenation of the token expansions, leaves
every other memory cell and every other field of the context unchanged, and
returns `offset` plus the number of bytes produced, modulo 65536. -/
theorem UnpackMem_tokens (context : Z80_CONTEXT) (offset : Nat) (data : Nat → Nat)
    (start compressed : Nat) (toks : List Token) (hc : compressed ≠ 0)
    (hs : Scans data start toks) :
    (UnpackMem context offset data start (start + sizeAll toks) compressed).1 =
      { context with
        memory := (writeSeq context.memory (offset % 65536) (expandAll toks)).1 } ∧
    (UnpackMem context offset data start (start + sizeAll toks) compressed).2 =
      (offset + (expandAll toks).length) % 65536 ∧
    ((expandAll toks).length ≤ 65536 → ∀ j, j < (expandAll toks).length →
      (UnpackMem context offset data start (start + sizeAll toks) compressed).1.memory
        ((offset + j) % 65536) = (expandAll toks).getD j 0) ∧
    (∀ a, (∀ j, j < (expandAll toks).length → a ≠ (offset + j) % 65536) →
      (UnpackMem context offset data start (start + sizeAll toks) compressed).1.memory a
        = context.memory a) := by
  have hlt : offset % 65536 < 65536 := Nat.mod_lt _ (by norm_num)
  rw [UnpackMem_scans context offset data start _ compressed toks hc hs (le_refl _) (Or.inl rfl)]
  refine ⟨rfl, ?_, ?_, ?_⟩
  · simp only [writeSeq_snd _ _ _ hlt]; omega
  · intro hlen j hj
    have := writeSeq_get context.memory (offset % 65536) (expandAll toks) j hlt hlen hj
    simp only [Nat.mod_add_mod] at this
    exact this
  · intro a ha
    apply writeSeq_other _ _ _ _ hlt
    intro j hj
    have := ha j hj
    omega

/-- Claim C7: for every classic-format buffer of length `30 + n` with `n ≤ 49152`, a
non-zero PC field and an uncompressed payload (bit 5 of byte 12 clear, or byte 12
equal to `0xFF`), `LoadZ80Format` returns, leaves `memory[0x4000 + j] = data[30 + j]`
for every `j < n`, and sets the registers from the documented offsets: A, F from
bytes 0, 1; BC, HL, PC, SP from the little-endian words at 2, 4, 6, 8; I from byte
10; R from the low 7 bits of byte 11 and bit 0 of byte 12; border from bits 1..3 of
byte 12 (byte 12 read as 1 when it is `0xFF`); DE from the word at 13; the alternate
BC, DE, HL from the words at 15, 17, 19; the alternate A, F from bytes 21, 22; IY, IX
from the words at 23, 25; IFF1, IFF2 from bytes 27, 28 being non-zero; IM from the
low two bits of byte 29. -/
theorem LoadZ80Format_classic_uncompressed (eng : Engine) (fuel : Nat) (s : Z80_CONTEXT)
    (data : Nat → Nat) (n : Nat) (hbytes : ∀ i, data i < 256) (hn : n ≤ 49152)
    (hpc : leWord data 6 ≠ 0) (hraw : data 12 &&& 32 = 0 ∨ data 12 = 255) :
    ∃ s', LoadZ80Format eng fuel s data (30 + n) = some s' ∧
      (∀ j, j < n → s'.memory (0x4000 + j) = data (30 + j)) ∧
      s'.state.a = data 0 ∧ s'.state.f = data 1 ∧
      s'.state.bc = leWord data 2 ∧ s'.state.hl = leWord data 4 ∧
      s'.state.pc = leWord data 6 ∧ s'.state.sp = leWord data 8 ∧
      s'.state.i = data 10 ∧
      s'.state.r = (data 11 &&& 0x7F) ||| ((LoadZ80Format.bitinfo data % 2) <<< 7) ∧
      s'.border = (LoadZ80Format.bitinfo data >>> 1) &&& 7 ∧
      s'.state.de = leWord data 13 ∧
      s'.state.alt_bc = leWord data 15 ∧ s'.state.alt_de = leWord data 17 ∧
      s'.state.alt_hl = leWord data 19 ∧
      s'.state.alt_af / 256 = data 21 ∧ s'.state.alt_af % 256 = data 22 ∧
      s'.state.iy = leWord data 23 ∧ s'.state.ix = leWord data 25 ∧
      s'.state.iff1 = (if data 27 ≠ 0 then 1 else 0) ∧
      s'.state.iff2 = (if data 28 ≠ 0 then 1 else 0) ∧
      s'.state.im = data 29 &&& 3 := by
  have hw : ∀ k, k + 1 < 65536 → READWORD data k = leWord data k :=
    fun k hk => READWORD_eq_leWord data k hbytes hk
  have hflag : LoadZ80Format.bitinfo data &&& 32 = 0 := by
    unfold LoadZ80Format.bitinfo
    by_cases h : data 12 = 255
    · simp [h]
    · rcases hraw with h' | h'
      · simp [h, h']
      · exact absurd h' h
  have hpc' : ¬ (READWORD data 6 = 0) := by rw [hw 6 (by norm_num)]; exact hpc
  have hborder : ((LoadZ80Format.bitinfo data >>> 1) &&& 7) % 256
      = (LoadZ80Format.bitinfo data >>> 1) &&& 7 :=
    Nat.mod_eq_of_lt (lt_of_lt_of_le (Nat.and_lt_two_pow _ (by norm_num : 7 < 2 ^ 3)) (by norm_num))
  have haf : ((data 21 <<< 8) ||| data 22) % 65536 = data 22 + 256 * data 21 := by
    rw [Nat.or_comm, or_shiftLeft_8 _ _ (hbytes 22)]
    have := hbytes 21; have := hbytes 22
    omega
  rw [LoadZ80Format_eq, if_neg hpc']
  simp only [hflag, ne_eq, not_true_eq_false, if_false]
  rw [UnpackMem_raw]
  refine ⟨_, rfl, ?_, rfl, rfl, hw 2 (by norm_num), hw 4 (by norm_num), hw 6 (by norm_num),
    hw 8 (by norm_num), rfl, refresh_register _ _, hborder, hw 13 (by norm_num),
    hw 15 (by norm_num), hw 17 (by norm_num), hw 19 (by norm_num), ?_, ?_,
    hw 23 (by norm_num), hw 25 (by norm_num), rfl, rfl, rfl⟩
  · intro j hj
    have h := writeSeq_get (LoadZ80Format.header eng s data).memory (0x4000 % 65536)
      (slice data 30 n) j (by norm_num) (by rw [slice_length]; omega) (by rw [slice_length]; exact hj)
    rw [slice_getD _ _ _ _ hj] at h
    have e : (0x4000 % 65536 + j) % 65536 = 0x4000 + j := by omega
    rw [e] at h
    exact h
  · show ((data 21 <<< 8) ||| data 22) % 65536 / 256 = data 21
    rw [haf]; have := hbytes 22; omega
  · show ((data 21 <<< 8) ||| data 22) % 65536 % 256 = data 22
    rw [haf]; have := hbytes 22; omega

theorem LoadZ80Format_classic_uncompressed_witness :
    ∃ s', LoadZ80Format nullEngine 0 stateKeyHeld snapshotClassic (30 + 3) = some s' ∧
      (∀ j, j < 3 → s'.memory (0x4000 + j) = snapshotClassic (30 + j)) ∧
      s'.state.a = snapshotClassic 0 ∧ s'.state.f = snapshotClassic 1 ∧
      s'.state.bc = leWord snapshotClassic 2 :=
  match LoadZ80Format_classic_uncompressed nullEngine 0 stateKeyHeld snapshotClassic 3
      (bufferOf_lt _) (by decide) (by decide) (by decide) with
  | ⟨s', h1, h2, h3, h4, h5, _⟩ => ⟨s', h1, h2, h3, h4, h5⟩

theorem UnpackMem_tokens_witness :
    (UnpackMem stateFilled 0x4000 (bufferOf [0xED, 0xED, 0x05, 0x2A]) 0 (0 + 4) 1).2 =
      (0x4000 + 5) % 65536 ∧
    (∀ j, j < 5 →
      (UnpackMem stateFilled 0x4000 (bufferOf [0xED, 0xED, 0x05, 0x2A]) 0 (0 + 4) 1).1.memory
        ((0x4000 + j) % 65536) = [0x2A, 0x2A, 0x2A, 0x2A, 0x2A].getD j 0) ∧
    (∀ a, (∀ j, j < 5 → a ≠ (0x4000 + j) % 65536) →
      (UnpackMem stateFilled 0x4000 (bufferOf [0xED, 0xED, 0x05, 0x2A]) 0 (0 + 4) 1).1.memory a
        = stateFilled.memory a) :=
  have h := UnpackMem_tokens stateFilled 0x4000 (bufferOf [0xED, 0xED, 0x05, 0x2A]) 0 1
    [Token.run 5 0x2A] (by decide) (by decide)
  ⟨h.2.1, h.2.2.1 (by decide), h.2.2.2⟩

/-- Claim C9 on two regions of one literal token each, where the marker and pair
tests of `UnpackMem` read `data[i+1..i+3]` past `end` although the loop is bounded by
`end`.  The region is the single literal `00` and `ED ED 00` follows it in the
buffer: nothing is stored and the offset returned is the start offset, where the
expansion of the token is the byte `00`.  The region is the single literal `ED` and
`ED 02 07` follows it: two bytes `07` are stored and the offset advances by 2, where
the expansion is the byte `ED`. -/
theorem UnpackMem_reads_past_end :
    slice (bufferOf [0x00, 0xED, 0xED, 0x00]) 0 1 = Token.encode (Token.lit 0x00) ∧
    UnpackMem stateFilled 0x4000 (bufferOf [0x00, 0xED, 0xED, 0x00]) 0 1 1
      = (stateFilled, 0x4000) ∧
    stateFilled.memory 0x4000 = 0xAA ∧
    slice (bufferOf [0xED, 0xED, 0x02, 0x07]) 0 1 = Token.encode (Token.lit 0xED) ∧
    (UnpackMem stateFilled 0x4000 (bufferOf [0xED, 0xED, 0x02, 0x07]) 0 1 1).2 = 0x4002 ∧
    (UnpackMem stateFilled 0x4000 (bufferOf [0xED, 0xED, 0x02, 0x07]) 0 1 1).1.memory 0x4000
      = 0x07 ∧
    (UnpackMem stateFilled 0x4000 (bufferOf [0xED, 0xED, 0x02, 0x07]) 0 1 1).1.memory 0x4001
      = 0x07 := by
  refine ⟨by decide, ?_, by decide, by decide, by decide, by decide, by decide⟩
  rfl

theorem Scans_congr (data data' : Nat → Nat) :
    ∀ (toks : List Token) (i : Nat), (∀ j, j < i + sizeAll toks + 3 → data' j = data j) →
      Scans data i toks → Scans data' i toks := by
  intro toks
  induction toks with
  | nil => intro i _ _; trivial
  | cons t ts ih =>
    intro i h hs
    obtain ⟨hm, hat, hrest⟩ := hs
    have hsz : 1 ≤ t.size := by cases t <;> simp [Token.size]
    simp only [sizeAll] at h
    have e0 := h i (by omega)
    have e1 := h (i + 1) (by omega)
    have e2 := h (i + 2) (by omega)
    have e3 := h (i + 3) (by omega)
    refine ⟨?_, ?_, ?_⟩
    · unfold marker at hm ⊢; rw [e0, e1, e2, e3]; exact hm
    · cases t with
      | run n v => unfold Token.At at hat ⊢; rw [e0, e1, e2, e3]; exact hat
      | lit b => unfold Token.At at hat ⊢; rw [e0, e1]; exact hat
    · exact ih _ (fun j hj => h j (by omega)) hrest

theorem LoadZ80Format.header_congr (eng : Engine) (s : Z80_CONTEXT) (data data' : Nat → Nat)
    (h : ∀ j, j < 30 → data' j = data j) :
    LoadZ80Format.header eng s data' = LoadZ80Format.header eng s data := by
  simp [LoadZ80Format.header, LoadZ80Format.bitinfo, READWORD, h]

theorem GetPage_lt (page : Nat) : GetPage page < 65536 := by
  unfold GetPage
  split <;> norm_num

theorem Tiles_le (data : Nat → Nat) (length : Nat) :
    ∀ (blocks : List Block) (i : Nat), Tiles data length i blocks → i ≤ length := by
  intro blocks
  induction blocks with
  | nil => intro i h; exact le_of_eq h
  | cons b bs ih =>
    intro i h
    have := ih _ h.2.2
    omega

theorem ReadV2Format.loop_tiles (data : Nat → Nat) (length : Nat) (hb : ∀ i, data i < 256) :
    ∀ (blocks : List Block) (fuel i : Nat) (context : Z80_CONTEXT),
      Tiles data length i blocks →
      (blocks.length ≤ fuel →
        ReadV2Format.loop data length fuel i context =
          some { context with memory := writeBlocks data i blocks context.memory }) ∧
      (fuel < blocks.length → ReadV2Format.loop data length fuel i context = none) := by
  intro blocks
  induction blocks with
  | nil =>
    intro fuel i context h
    have hi : i = length := h
    constructor
    · intro _
      unfold ReadV2Format.loop
      simp [hi, writeBlocks]
    · intro hf; simp at hf
  | cons b bs ih =>
    intro fuel i context h
    obtain ⟨hi16, hat, hrest⟩ := h
    have hle := Tiles_le data length bs _ hrest
    have hne : i ≠ length := by omega
    have hword : READWORD data i = leWord data i := READWORD_eq_leWord data i hb hi16
    cases fuel with
    | zero =>
      constructor
      · intro hf; simp at hf
      · intro _
        unfold ReadV2Format.loop
        simp [hne]
    | succ f =>
      have hstep : ReadV2Format.loop data length (f + 1) i context =
          ReadV2Format.loop data length f (i + 3 + b.size)
            { context with
              memory := (writeSeq context.memory (GetPage b.page) (b.output data (i + 3))).1 } := by
        rw [ReadV2Format.loop, if_pos hne]
        simp only [hword]
        cases b with
        | raw page =>
          obtain ⟨hlen, hpage⟩ := hat
          simp only [hlen, if_true, hpage, Block.size, Block.page, Block.output]
          rw [UnpackMem_raw, Nat.mod_eq_of_lt (GetPage_lt page)]
        | packed page toks =>
          obtain ⟨hlen, hnf, hpage, hscan⟩ := hat
          simp only [hlen, if_neg hnf, hpage, Block.size, Block.page, Block.output]
          rw [UnpackMem_scans _ _ _ _ _ _ toks (by norm_num) hscan (le_refl _) (Or.inl rfl),
            Nat.mod_eq_of_lt (GetPage_lt page)]
      obtain ⟨ih1, ih2⟩ := ih f (i + 3 + b.size)
        { context with
          memory := (writeSeq context.memory (GetPage b.page) (b.output data (i + 3))).1 } hrest
      constructor
      · intro hf
        rw [hstep, ih1 (by simpa using hf)]
        rfl
      · intro hf
        rw [hstep, ih2 (by simpa using hf)]

theorem ReadV2Format.loop_overshoot (data : Nat → Nat) (length : Nat) :
    ∀ (fuel i : Nat) (context : Z80_CONTEXT), length < i →
      ReadV2Format.loop data length fuel i context = none := by
  intro fuel
  induction fuel with
  | zero =>
    intro i context h
    unfold ReadV2Format.loop
    simp [Nat.ne_of_gt h]
  | succ f ih =>
    intro i context h
    rw [ReadV2Format.loop, if_pos (Nat.ne_of_gt h)]
    exact ih _ _ (by omega)

/-- Claim C10: for every classic-format buffer with the compression flag set, once
the scan has read the tokens of `data[30 .. i)` and stands at a position `i < length`
whose four bytes are `00 ED ED 00`, output halts: `LoadZ80Format` returns, the memory
it leaves is the memory after initialisation with the expansion of those tokens
stored from `0x4000` on, and the whole resulting state is the same for every
buffer, of whatever length above `i`, that agrees with this one up to the marker. -/
theorem LoadZ80Format_end_marker (eng : Engine) (fuel : Nat) (s : Z80_CONTEXT)
    (data : Nat → Nat) (length : Nat) (toks : List Token)
    (hpc : READWORD data 6 ≠ 0) (hflag : LoadZ80Format.bitinfo data &&& 32 ≠ 0)
    (hs : Scans data 30 toks) (hi : 30 + sizeAll toks < length)
    (hm : marker data (30 + sizeAll toks)) :
    ∃ s', LoadZ80Format eng fuel s data length = some s' ∧
      s'.memory = (writeSeq (InitContext eng s).memory 0x4000 (expandAll toks)).1 ∧
      (∀ (data' : Nat → Nat) (length' : Nat),
        (∀ j, j < 30 + sizeAll toks + 4 → data' j = data j) → 30 + sizeAll toks < length' →
        LoadZ80Format eng fuel s data' length' = some s') := by
  have key : ∀ (d : Nat → Nat) (len : Nat),
      (∀ j, j < 30 + sizeAll toks + 4 → d j = data j) → 30 + sizeAll toks < len →
      LoadZ80Format eng fuel s d len = some
        { LoadZ80Format.header eng s data with
          memory := (writeSeq (LoadZ80Format.header eng s data).memory (0x4000 % 65536)
            (expandAll toks)).1 } := by
    intro d len hd hlen
    have hhead : LoadZ80Format.header eng s d = LoadZ80Format.header eng s data :=
      LoadZ80Format.header_congr eng s data d (fun j hj => hd j (by omega))
    have hbit : LoadZ80Format.bitinfo d = LoadZ80Format.bitinfo data := by
      unfold LoadZ80Format.bitinfo; rw [hd 12 (by omega)]
    have hpcd : ¬ (READWORD d 6 = 0) := by
      have : READWORD d 6 = READWORD data 6 := by
        simp [READWORD, hd 6 (by omega), hd 7 (by omega)]
      rw [this]; exact hpc
    have hsd : Scans d 30 toks := Scans_congr data d toks 30 (fun j hj => hd j (by omega)) hs
    have hmd : marker d (30 + sizeAll toks) := by
      unfold marker at hm ⊢
      rw [hd _ (by omega), hd _ (by omega), hd _ (by omega), hd _ (by omega)]
      exact hm
    rw [LoadZ80Format_eq, if_neg hpcd, hbit, if_pos hflag,
      UnpackMem_scans _ _ _ _ _ _ toks (by norm_num) hsd (by omega) (Or.inr hmd), hhead]
  refine ⟨_, key data length (fun _ _ => rfl) hi, rfl, ?_⟩
  intro data' length' hd hlen
  exact key data' length' hd hlen

theorem LoadZ80Format_end_marker_witness :
    ∃ s', LoadZ80Format nullEngine 0 stateKeyHeld snapshotMarker 40 = some s' ∧
      s'.memory = (writeSeq (InitContext nullEngine stateKeyHeld).memory 0x4000
        [0x11, 0x22, 0x22, 0x22]).1 :=
  match LoadZ80Format_end_marker nullEngine 0 stateKeyHeld snapshotMarker 40
      [Token.lit 0x11, Token.run 3 0x22] (by decide) (by decide) (by decide) (by decide)
      (by decide) with
  | ⟨s', h1, h2, _⟩ => ⟨s', h1, h2⟩

/-- Claim C8, as the code has it: for every extended-format buffer (header PC field
zero) whose extension header and page blocks tile the bytes up to `length`, with
every block header below offset 65535 and every run-length block read by the scan
as tokens without an end marker at a token position (`Tiles`), `LoadZ80Format`
takes PC from the word at offset 32, makes exactly one pass of its loop per block
(it returns with as many passes as there are blocks and with no fewer), and
stores the data of the blocks in file order, each from `GetPage` of its page
identifier on: `0x4000` for 8, `0x8000` for 4, `0xC000` for 5; a block whose length
field is `0xFFFF` is stored as its 16384 bytes, with no run-length reading. -/
theorem LoadZ80Format_extended (eng : Engine) (fuel : Nat) (s : Z80_CONTEXT)
    (data : Nat → Nat) (length : Nat) (blocks : List Block)
    (hbytes : ∀ i, data i < 256) (hpc : leWord data 6 = 0)
    (htiles : Tiles data length (32 + leWord data 30) blocks) :
    (blocks.length ≤ fuel →
      ∃ s', LoadZ80Format eng fuel s data length = some s' ∧
        s'.state.pc = leWord data 32 ∧
        s'.memory =
          writeBlocks data (32 + leWord data 30) blocks (InitContext eng s).memory) ∧
    (fuel < blocks.length → LoadZ80Format eng fuel s data length = none) ∧
    GetPage 8 = 0x4000 ∧ GetPage 4 = 0x8000 ∧ GetPage 5 = 0xC000 := by
  have hw : ∀ k, k + 1 < 65536 → READWORD data k = leWord data k :=
    fun k hk => READWORD_eq_leWord data k hbytes hk
  have hpc' : READWORD data 6 = 0 := by rw [hw 6 (by norm_num)]; exact hpc
  have heq : LoadZ80Format eng fuel s data length =
      ReadV2Format.loop data length fuel (32 + leWord data 30)
        { LoadZ80Format.header eng s data with
          state := { (LoadZ80Format.header eng s data).state with pc := leWord data 32 } } := by
    rw [LoadZ80Format_eq, if_pos hpc']
    unfold ReadV2Format
    simp only [hw 30 (by norm_num), hw 32 (by norm_num)]
  obtain ⟨h1, h2⟩ := ReadV2Format.loop_tiles data length hbytes blocks fuel _
    { LoadZ80Format.header eng s data with
      state := { (LoadZ80Format.header eng s data).state with pc := leWord data 32 } } htiles
  refine ⟨?_, ?_, rfl, rfl, rfl⟩
  · intro hf
    exact ⟨_, heq.trans (h1 hf), rfl, rfl⟩
  · intro hf
    exact heq.trans (h2 hf)

theorem LoadZ80Format_extended_witness :
    ∃ s', LoadZ80Format nullEngine 2 stateKeyHeld snapshotExtended (45 + 16384) = some s' ∧
      s'.state.pc = 0x1234 ∧
      s'.memory = writeBlocks snapshotExtended 34
        [Block.packed 8 [Token.lit 0x11, Token.run 2 0x22], Block.raw 5]
        (InitContext nullEngine stateKeyHeld).memory :=
  (LoadZ80Format_extended nullEngine 2 stateKeyHeld snapshotExtended (45 + 16384)
    [Block.packed 8 [Token.lit 0x11, Token.run 2 0x22], Block.raw 5]
    (bufferOf_lt _) (by decide) (by decide)).1 (by decide)

set_option maxRecDepth 100000 in
/-- Claim C8 as stated fails on three buffers that tile exactly.  (1) The first
block is the single byte `ED` for page 8 and the next block (page 4) has length
`0x00ED`: the scan pairs the `ED` with the length byte of the next header and stores
nothing, so `memory[0x4000]` is 0, not `0xED`, while the second block is stored as it
should be.  (2) The only block is `00 ED ED 00 55 77` for page
8, that is the bytes `00 77`: the scan takes its first four bytes for the end marker
and stores nothing.  (3) The extension header is 65535 bytes long, so the only
block starts at offset 65567: `READWORD` reads its length at offset 31 (255 instead
of 1), the loop steps past `length` and never returns. -/
theorem LoadZ80Format_extended_misreads :
    (leWord snapshotRunAcross 6 = 0 ∧ leWord snapshotRunAcross 30 = 2 ∧
      leWord snapshotRunAcross 34 = 1 ∧ snapshotRunAcross 36 = 8 ∧
      snapshotRunAcross 37 = 0xED ∧
      leWord snapshotRunAcross 38 = 237 ∧ snapshotRunAcross 40 = 4 ∧
      snapshotRunAcross (41 + 236) = 0x01 ∧
      (LoadZ80Format nullEngine 2 stateKeyHeld snapshotRunAcross (41 + 237)).map
        (fun s => (s.memory 0x4000, s.memory (0x8000 + 236))) = some (0, 0x01)) ∧
    (leWord snapshotMarkerInBlock 6 = 0 ∧ leWord snapshotMarkerInBlock 30 = 2 ∧
      leWord snapshotMarkerInBlock 34 = 6 ∧ snapshotMarkerInBlock 36 = 8 ∧
      slice snapshotMarkerInBlock 37 6 =
        Token.encode (Token.lit 0x00) ++ Token.encode (Token.run 0 0x55) ++
          Token.encode (Token.lit 0x77) ∧
      expandAll [Token.lit 0x00, Token.run 0 0x55, Token.lit 0x77] = [0x00, 0x77] ∧
      (LoadZ80Format nullEngine 1 stateKeyHeld snapshotMarkerInBlock (37 + 6)).map
        (fun s => (s.memory 0x4000, s.memory 0x4001)) = some (0, 0)) ∧
    (leWord snapshotFarBlock 6 = 0 ∧ 32 + leWord snapshotFarBlock 30 = 65567 ∧
      leWord snapshotFarBlock 65567 = 1 ∧ snapshotFarBlock 65569 = 8 ∧
      65567 + 3 + 1 = 65571 ∧ READWORD snapshotFarBlock 65567 = 255 ∧
      ∀ fuel, LoadZ80Format nullEngine fuel stateKeyHeld snapshotFarBlock 65571 = none) := by
  refine ⟨by decide, by decide, by decide, by decide, by decide, by decide, by decide,
    by decide, ?_⟩
  intro fuel
  have hpc : READWORD snapshotFarBlock 6 = 0 := by decide
  have h30 : READWORD snapshotFarBlock 30 = 65535 := by decide
  have hw : READWORD snapshotFarBlock (32 + 65535) = 255 := by decide
  rw [LoadZ80Format_eq, if_pos hpc]
  unfold ReadV2Format
  simp only [h30]
  cases fuel with
  | zero => unfold ReadV2Format.loop; simp
  | succ f =>
    rw [ReadV2Format.loop, if_pos (by norm_num)]
    simp only [hw]
    exact ReadV2Format.loop_overshoot _ _ _ _ _ (by norm_num)

/-! ## Screen renderer -/

theorem GetPixels_length (b c : Nat) (fl : Int) : (GetPixels b c fl).length = 8 := rfl

theorem GetPixels_getD (b c : Nat) (fl : Int) (k : Nat) (hk : k < 8) :
    (GetPixels b c fl).getD k 0 = GetPixels.pixel b c fl (7 - k) := by
  interval_cases k <;> rfl

theorem memcpy_GetPixels (f : Nat → Nat) (base b c : Nat) (fl : Int) (j : Nat) :
    memcpy f base (GetPixels b c fl) j =
      if base ≤ j ∧ j < base + 8 then GetPixels.pixel b c fl (7 - (j - base)) else f j := by
  unfold memcpy
  rw [GetPixels_length]
  by_cases h : base ≤ j ∧ j < base + 8
  · rw [if_pos h, if_pos h, GetPixels_getD _ _ _ _ (by omega)]
  · rw [if_neg h, if_neg h]

theorem CopyScreenLine.cells_eq (memory : Nat → Nat) (bo co : Nat) (fl : Int) (offset : Nat) :
    ∀ (count chx : Nat) (f : Nat → Nat) (j : Nat),
      CopyScreenLine.cells memory bo co fl offset count chx f j =
        if offset + chx * 8 ≤ j ∧ j < offset + (chx + count) * 8 then
          GetPixels.pixel (memory (bo + (j - offset) / 8)) (memory (co + (j - offset) / 8)) fl
            (7 - (j - offset) % 8)
        else f j := by
  intro count
  induction count with
  | zero =>
    intro chx f j
    have : ¬ (offset + chx * 8 ≤ j ∧ j < offset + (chx + 0) * 8) := by omega
    rw [if_neg this]; rfl
  | succ n ih =>
    intro chx f j
    rw [CopyScreenLine.cells, ih, memcpy_GetPixels]
    by_cases h1 : offset + (chx + 1) * 8 ≤ j ∧ j < offset + (chx + 1 + n) * 8
    · rw [if_pos h1, if_pos (by omega)]
    · rw [if_neg h1]
      by_cases h2 : offset + chx * 8 ≤ j ∧ j < offset + chx * 8 + 8
      · rw [if_pos h2, if_pos (by omega)]
        have e1 : (j - offset) / 8 = chx := by omega
        have e2 : j - (offset + chx * 8) = (j - offset) % 8 := by omega
        rw [e1, e2]
      · rw [if_neg h2, if_neg (by omega)]

/-- What `CopyScreenLine` leaves in the frame buffer: the bytes of scanline `y`, the rest
as it was. -/
theorem CopyScreenLine_eq (context : Z80_CONTEXT) (y : Nat) (frame_buf : Nat → Nat) (j : Nat) :
    CopyScreenLine context y frame_buf j =
      if y * 352 ≤ j ∧ j < y * 352 + 352 then linePixel context y (j - y * 352)
      else frame_buf j := by
  unfold CopyScreenLine linePixel
  by_cases hy : y < 48 ∨ y ≥ 240
  · simp only [if_pos hy]
    unfold memset
    rfl
  · simp only [if_neg hy]
    rw [CopyScreenLine.cells_eq]
    unfold memset
    by_cases hj : y * 352 ≤ j ∧ j < y * 352 + 352
    · rw [if_pos hj]
      by_cases hx : j - y * 352 < 48 ∨ j - y * 352 ≥ 304
      · rw [if_pos hx, if_neg (by omega)]
        rcases hx with h | h
        · rw [if_neg (by omega), if_pos (by omega)]
        · rw [if_pos (by omega)]
      · rw [if_neg hx, if_pos (by omega)]
        have e : j - (y * 352 + 48) = j - y * 352 - 48 := by omega
        rw [e]
        rfl
    · rw [if_neg hj, if_neg (by omega), if_neg (by omega), if_neg (by omega)]

theorem and_two_pow_ne_zero (x i : Nat) : (x &&& 2 ^ i ≠ 0) ↔ x.testBit i = true := by
  rw [Nat.and_two_pow]
  cases x.testBit i <;> simp

theorem or_8_of_lt (x : Nat) (h : x < 8) : x ||| 8 = x + 8 := by
  have := Nat.mul_add_lt_is_or (i := 3) (b := x) (by norm_num; exact h) 1
  rw [Nat.or_comm]; norm_num at this; omega

theorem GetPixels.pixel_eq (b c : Nat) (fl : Int) (bit : Nat) :
    GetPixels.pixel b c fl bit =
      (if c.testBit 7 = true ∧ fl ≠ 0 then (if b.testBit bit = true then c / 8 % 8 else c % 8)
        else (if b.testBit bit = true then c % 8 else c / 8 % 8)) +
      (if c.testBit 6 = true then 8 else 0) := by
  have hpaper : (c >>> 3) &&& 7 = c / 8 % 8 := by
    have := Nat.and_pow_two_sub_one_eq_mod (c >>> 3) 3
    rw [Nat.shiftRight_eq_div_pow] at this
    norm_num at this; rw [Nat.shiftRight_eq_div_pow]; norm_num; exact this
  have hink : c &&& 7 = c % 8 := by
    have := Nat.and_pow_two_sub_one_eq_mod c 3
    norm_num at this; exact this
  have hflash : (c &&& 0x80 ≠ 0) ↔ c.testBit 7 = true := and_two_pow_ne_zero c 7
  have hbright : (c &&& 0x40 ≠ 0) ↔ c.testBit 6 = true := and_two_pow_ne_zero c 6
  have hset : (b &&& (1 <<< bit) ≠ 0) ↔ b.testBit bit = true := by
    rw [Nat.one_shiftLeft]; exact and_two_pow_ne_zero b bit
  have hp8 : c / 8 % 8 < 8 := Nat.mod_lt _ (by norm_num)
  have hi8 : c % 8 < 8 := Nat.mod_lt _ (by norm_num)
  unfold GetPixels.pixel
  simp only [hpaper, hink, hflash, hbright, hset]
  split_ifs <;>
    first
      | (rw [or_8_of_lt _ hp8]; omega)
      | (rw [or_8_of_lt _ hi8]; omega)
      | omega

theorem GetPixels.pixel_le (b c : Nat) (fl : Int) (bit : Nat) : GetPixels.pixel b c fl bit ≤ 15 := by
  have hp : (c >>> 3) &&& 7 < 2 ^ 4 :=
    lt_of_lt_of_le (Nat.and_lt_two_pow _ (by norm_num : 7 < 2 ^ 3)) (by norm_num)
  have hi : c &&& 7 < 2 ^ 4 :=
    lt_of_lt_of_le (Nat.and_lt_two_pow _ (by norm_num : 7 < 2 ^ 3)) (by norm_num)
  have h8 : (8 : Nat) < 2 ^ 4 := by norm_num
  have hp8 := Nat.or_lt_two_pow hp h8
  have hi8 := Nat.or_lt_two_pow hi h8
  unfold GetPixels.pixel
  simp only []
  have hmod : ∀ x, x < 2 ^ 4 → x % 256 ≤ 15 := by intro x hx; norm_num at hx; omega
  split <;> split <;> split <;> apply hmod <;> assumption

theorem linePixel_le (c : Z80_CONTEXT) (y x : Nat) (h : c.border ≤ 15) : linePixel c y x ≤ 15 := by
  unfold linePixel
  split
  · omega
  · split
    · omega
    · exact GetPixels.pixel_le _ _ _ _

theorem flashPhase_ne_zero (fc : Int) : flashPhase fc ≠ 0 ↔ fc / 16 % 2 = 1 := by
  unfold flashPhase
  rw [andMask_x10]
  have : fc / 16 % 2 = 0 ∨ fc / 16 % 2 = 1 := by omega
  rcases this with h | h <;> rw [h] <;> simp

theorem testBit_3_of_lt_8 (x : Nat) (h : x < 8) :
    x.testBit 3 = false ∧ (x + 8).testBit 3 = true := by
  constructor
  · exact Nat.testBit_lt_two_pow (by norm_num; exact h)
  · have := Nat.testBit_two_pow_add_eq x 3
    have e : 2 ^ 3 + x = x + 8 := by norm_num; omega
    rw [e] at this
    rw [this, Nat.testBit_lt_two_pow (by norm_num; exact h)]
    rfl

theorem testBit_complement_byte (b : Nat) (hb : b < 256) (k : Nat) (hk : k < 8) :
    (255 - b).testBit k = !b.testBit k := by
  have := Nat.testBit_two_pow_sub_succ (n := 8) (x := b) (by norm_num; exact hb) k
  have e : 2 ^ 8 - (b + 1) = 255 - b := by norm_num; omega
  rw [e] at this
  rw [this]; simp [hk]

theorem GetPixels.pixel_phase (b c : Nat) (fc : Int) (bit : Nat) :
    GetPixels.pixel b c (flashPhase fc) bit =
      (if c.testBit 7 = true ∧ fc / 16 % 2 = 1 then
          (if b.testBit bit = true then c / 8 % 8 else c % 8)
        else (if b.testBit bit = true then c % 8 else c / 8 % 8)) +
      (if c.testBit 6 = true then 8 else 0) := by
  rw [GetPixels.pixel_eq]
  by_cases h : fc / 16 % 2 = 1
  · have h' : flashPhase fc ≠ 0 := (flashPhase_ne_zero fc).mpr h
    simp only [h, h', ne_eq, not_false_eq_true, and_true]
  · have h' : ¬ (flashPhase fc ≠ 0) := fun hh => h ((flashPhase_ne_zero fc).mp hh)
    simp only [h, h', and_false]

theorem GetPixels.pixel_steady (b c bit : Nat) :
    GetPixels.pixel b c 0 bit =
      (if b.testBit bit = true then c % 8 else c / 8 % 8) +
      (if c.testBit 6 = true then 8 else 0) := by
  rw [GetPixels.pixel_eq]
  simp only [ne_eq, not_true_eq_false, and_false, if_false]

/-- Claim C14: for every bitmap byte `b` and attribute byte `c`, with ink `c & 7`,
paper `(c >> 3) & 7` and bright bit 6 of `c`, and the flash phase bit 4 of
`frame_counter`: pixel `i` of the cell is paper where bit `7 - i` of `b` is set and ink
elsewhere when bit 7 of `c` and the phase are both set, which are the pixels of the
complemented byte with the phase off; it is ink where the bit is set and paper
elsewhere in every other case; bit 3 of the pixel is set exactly when bright. -/
theorem GetPixels_flash_phase (b c : Nat) (fc : Int) (hb : b < 256) :
    (∀ i, i < 8 → (GetPixels b c (flashPhase fc)).getD i 0 =
      (if c.testBit 7 = true ∧ fc / 16 % 2 = 1 then
          (if b.testBit (7 - i) = true then c / 8 % 8 else c % 8)
        else (if b.testBit (7 - i) = true then c % 8 else c / 8 % 8)) +
      (if c.testBit 6 = true then 8 else 0)) ∧
    (c.testBit 7 = true ∧ fc / 16 % 2 = 1 →
      GetPixels b c (flashPhase fc) = GetPixels (255 - b) c 0) ∧
    (¬ (c.testBit 7 = true ∧ fc / 16 % 2 = 1) →
      GetPixels b c (flashPhase fc) = GetPixels b c 0) ∧
    (∀ i, i < 8 →
      ((GetPixels b c (flashPhase fc)).getD i 0).testBit 3 = c.testBit 6) := by
  have hform : ∀ i, i < 8 → (GetPixels b c (flashPhase fc)).getD i 0 =
      (if c.testBit 7 = true ∧ fc / 16 % 2 = 1 then
          (if b.testBit (7 - i) = true then c / 8 % 8 else c % 8)
        else (if b.testBit (7 - i) = true then c % 8 else c / 8 % 8)) +
      (if c.testBit 6 = true then 8 else 0) := by
    intro i hi
    rw [GetPixels_getD _ _ _ _ hi, GetPixels.pixel_phase]
  have hlist : ∀ (b' : Nat) (fl fl' : Int),
      (∀ bit, bit < 8 → GetPixels.pixel b c fl bit = GetPixels.pixel b' c fl' bit) →
      GetPixels b c fl = GetPixels b' c fl' := by
    intro b' fl fl' h
    unfold GetPixels
    simp only [List.map_cons, List.map_nil]
    rw [h 7 (by norm_num), h 6 (by norm_num), h 5 (by norm_num), h 4 (by norm_num),
      h 3 (by norm_num), h 2 (by norm_num), h 1 (by norm_num), h 0 (by norm_num)]
  refine ⟨hform, ?_, ?_, ?_⟩
  · intro hf
    apply hlist
    intro bit hbit
    rw [GetPixels.pixel_phase, GetPixels.pixel_steady, if_pos hf,
      testBit_complement_byte b hb bit hbit]
    cases b.testBit bit <;> simp
  · intro hf
    apply hlist
    intro bit _
    rw [GetPixels.pixel_phase, GetPixels.pixel_steady, if_neg hf]
  · intro i hi
    rw [hform i hi]
    have hp8 : c / 8 % 8 < 8 := Nat.mod_lt _ (by norm_num)
    have hi8 : c % 8 < 8 := Nat.mod_lt _ (by norm_num)
    by_cases h6 : c.testBit 6 = true
    · rw [if_pos h6, h6]
      split_ifs
      · exact (testBit_3_of_lt_8 _ hp8).2
      · exact (testBit_3_of_lt_8 _ hi8).2
      · exact (testBit_3_of_lt_8 _ hi8).2
      · exact (testBit_3_of_lt_8 _ hp8).2
    · rw [if_neg h6, Nat.add_zero]
      have h6' : c.testBit 6 = false := by simpa using h6
      rw [h6']
      split_ifs
      · exact (testBit_3_of_lt_8 _ hp8).1
      · exact (testBit_3_of_lt_8 _ hi8).1
      · exact (testBit_3_of_lt_8 _ hi8).1
      · exact (testBit_3_of_lt_8 _ hp8).1

theorem GetPixels_flash_phase_witness :
    GetPixels 0xA0 0xD1 (flashPhase 16) = GetPixels (255 - 0xA0) 0xD1 0 ∧
    GetPixels 0xA0 0xD1 (flashPhase 15) = GetPixels 0xA0 0xD1 0 ∧
    ((GetPixels 0xA0 0xD1 (flashPhase 16)).getD 0 0).testBit 3 = Nat.testBit 0xD1 6 :=
  ⟨(GetPixels_flash_phase 0xA0 0xD1 16 (by decide)).2.1 (by decide),
    (GetPixels_flash_phase 0xA0 0xD1 15 (by decide)).2.2.1 (by decide),
    (GetPixels_flash_phase 0xA0 0xD1 16 (by decide)).2.2.2 0 (by decide)⟩

set_option maxRecDepth 100000 in
theorem rowMap_facts : ∀ y0, y0 < 192 →
    rowMap y0 < 192 ∧ rowMap (rowMap y0) = y0 ∧
    rowMap y0 <<< 5 = ((y0 &&& 0xC0) <<< 5) + ((y0 &&& 7) <<< 8) + (((y0 >>> 3) &&& 7) <<< 5) := by
  decide

theorem bitmapAddress_eq (y0 x : Nat) (hy : y0 < 192) :
    bitmapAddress y0 x = 0x4000 + rowMap y0 * 32 + x / 8 := by
  unfold bitmapAddress
  have h := (rowMap_facts y0 hy).2.2
  rw [Nat.shiftLeft_eq] at h
  norm_num at h
  omega

/-- Claim C17: for every in-screen row `y0 < 192` and column `x < 256` the byte
`CopyScreenLine` writes at index `(y0 + 48) * 352 + 48 + x` is decoded from bit
`7 - x mod 8` of the bitmap byte at `bitmapAddress y0 x` and from the attribute byte at
`attributeAddress y0 x`; the row map sends `0..191` into itself and is its own inverse;
the bitmap addresses lie in `0x4000..0x57FF`, the attribute addresses in
`0x5800..0x5AFF`, and distinct rows read distinct bitmap bytes. -/
theorem CopyScreenLine_screen_pixel (context : Z80_CONTEXT) (frame : Nat → Nat) (y0 x : Nat)
    (hy : y0 < 192) (hx : x < 256) :
    CopyScreenLine context (y0 + 48) frame ((y0 + 48) * 352 + 48 + x) =
      GetPixels.pixel (context.memory (bitmapAddress y0 x))
        (context.memory (attributeAddress y0 x)) (flashPhase context.frame_counter)
        (7 - x % 8) ∧
    rowMap y0 < 192 ∧ rowMap (rowMap y0) = y0 ∧
    0x4000 ≤ bitmapAddress y0 x ∧ bitmapAddress y0 x ≤ 0x57FF ∧
    0x5800 ≤ attributeAddress y0 x ∧ attributeAddress y0 x ≤ 0x5AFF ∧
    (∀ y1 x1, y1 < 192 → x1 < 256 → y1 ≠ y0 → bitmapAddress y1 x1 ≠ bitmapAddress y0 x) := by
  have hr := rowMap_facts y0 hy
  have hb := bitmapAddress_eq y0 x hy
  refine ⟨?_, hr.1, hr.2.1, ?_, ?_, ?_, ?_, ?_⟩
  · rw [CopyScreenLine_eq, if_pos (by omega)]
    unfold linePixel
    rw [if_neg (by omega), if_neg (by omega)]
    have e1 : (y0 + 48) * 352 + 48 + x - (y0 + 48) * 352 - 48 = x := by omega
    have e2 : y0 + 48 - 48 = y0 := by omega
    rw [e1, e2, hb]
    unfold attributeAddress
    rw [Nat.shiftLeft_eq]
  · omega
  · have := hr.1; omega
  · unfold attributeAddress; omega
  · unfold attributeAddress; omega
  · intro y1 x1 hy1 hx1 hne
    rw [hb, bitmapAddress_eq y1 x1 hy1]
    have hr1 := rowMap_facts y1 hy1
    have hinj : rowMap y1 ≠ rowMap y0 := by
      intro h
      apply hne
      rw [← hr1.2.1, h, hr.2.1]
    omega

theorem CopyScreenLine_screen_pixel_witness :
    CopyScreenLine stateScreen (191 + 48) (fun _ => 0) ((191 + 48) * 352 + 48 + 255) =
      GetPixels.pixel (stateScreen.memory (bitmapAddress 191 255))
        (stateScreen.memory (attributeAddress 191 255)) (flashPhase stateScreen.frame_counter)
        (7 - 255 % 8) ∧
    bitmapAddress 191 255 ≤ 0x57FF ∧ attributeAddress 191 255 ≤ 0x5AFF :=
  have h := CopyScreenLine_screen_pixel stateScreen (fun _ => 0) 191 255 (by decide) (by decide)
  ⟨h.1, h.2.2.2.2.1, h.2.2.2.2.2.2.1⟩

/-- The geometry of a frame as `CopyScreenLine` draws it: scanlines 0..47 and 240..311
are border, scanlines 48..239 are 48 border bytes, the 256 pixels of bitmap row
`y - 48` and 48 border bytes. -/
theorem CopyScreenLine_bands (context : Z80_CONTEXT) (frame : Nat → Nat) (y x : Nat)
    (hy : y < 312) (hx : x < 352) :
    CopyScreenLine context y frame (y * 352 + x) =
      if y < 48 ∨ 240 ≤ y ∨ x < 48 ∨ 304 ≤ x then context.border % 256
      else GetPixels.pixel (context.memory (bitmapAddress (y - 48) (x - 48)))
        (context.memory (attributeAddress (y - 48) (x - 48)))
        (flashPhase context.frame_counter) (7 - (x - 48) % 8) := by
  rw [CopyScreenLine_eq, if_pos (by omega)]
  have e : y * 352 + x - y * 352 = x := by omega
  rw [e]
  unfold linePixel
  by_cases h1 : y < 48 ∨ y ≥ 240
  · rw [if_pos h1, if_pos (by omega)]
  · rw [if_neg h1]
    by_cases h2 : x < 48 ∨ x ≥ 304
    · rw [if_pos h2, if_pos (by omega)]
    · rw [if_neg h2, if_neg (by omega), bitmapAddress_eq _ _ (by omega)]
      unfold attributeAddress
      rw [Nat.shiftLeft_eq]

/-- Claim C15 at scanlines 48, 63, 240 and 250, on a screen that is all ink 7 with
border 5: scanlines 48 and 63, inside the top border of 64 lines, carry ink at
column 48, and scanlines 240 and 250, inside the 192 bitmap rows that follow it,
carry the border colour there. -/
theorem CopyScreenLine_band_rows :
    stateScreen.border = 5 ∧
    CopyScreenLine stateScreen 48 (fun _ => 0) (48 * 352 + 48) = 7 ∧
    CopyScreenLine stateScreen 63 (fun _ => 0) (63 * 352 + 48) = 7 ∧
    stateScreen.memory (bitmapAddress (250 - 64) 0) = 0xFF ∧
    stateScreen.memory (attributeAddress (250 - 64) 0) = 0x07 ∧
    CopyScreenLine stateScreen 250 (fun _ => 0) (250 * 352 + 48) = 5 ∧
    CopyScreenLine stateScreen 240 (fun _ => 0) (240 * 352 + 48) = 5 := by
  decide

/-! ## Frame scheduler -/

/-- An undersized buffer makes `RenderFrame` return at once. -/
theorem RenderFrame_of_lt (eng : Engine) (s : Z80_CONTEXT) (frame : Nat → Nat) (length : Int)
    (h : length < 109824) :
    RenderFrame eng s frame length =
      { ret := wrap32 (109824 - length), context := s, frame := frame, calls := [] } := by
  simp [RenderFrame, h]

theorem RenderFrame.lines_eq (eng : Engine) (context : Z80_CONTEXT) (frame : Nat → Nat) :
    ∀ (count y : Nat) (calls : List EngineCall),
      RenderFrame.lines eng count y (scanState eng context y).2 (scanState eng context y).1
          (paint eng context frame y) calls =
        ((scanState eng context (y + count)).1, paint eng context frame (y + count),
          calls ++ (List.range' y count).map
            (fun z => EngineCall.emulate (224 - (scanState eng context z).2))) := by
  intro count
  induction count with
  | zero => intro y calls; simp [RenderFrame.lines]
  | succ n ih =>
    intro y calls
    rw [RenderFrame.lines]
    have h := ih (y + 1) (calls ++ [EngineCall.emulate (224 - (scanState eng context y).2)])
    simp only [scanState, paint] at h
    rw [h]
    simp only [List.range'_succ, List.map_cons, List.append_assoc, List.singleton_append]
    have e : y + 1 + n = y + (n + 1) := by omega
    rw [e]

/-- A call of `RenderFrame` with a large enough buffer, along the frame schedule. -/
theorem RenderFrame_eq (eng : Engine) (context : Z80_CONTEXT) (frame : Nat → Nat) (length : Int)
    (h : 109824 ≤ length) :
    RenderFrame eng context frame length =
      { ret := 0
        context := { (scanState eng context 312).1 with
          frame_counter := wrap32 ((scanState eng context 312).1.frame_counter + 1) }
        frame := paint eng context frame 312
        calls := EngineCall.interrupt 0 :: (List.range 312).map
          (fun y => EngineCall.emulate (224 - (scanState eng context y).2)) } := by
  have hl : ¬ (length < 352 * 312) := by omega
  have key : RenderFrame.lines eng 312 0 (eng.Z80Interrupt context 0).2
      (eng.Z80Interrupt context 0).1 frame [EngineCall.interrupt 0] =
        ((scanState eng context (0 + 312)).1, paint eng context frame (0 + 312),
          [EngineCall.interrupt 0] ++ (List.range' 0 312).map
            (fun z => EngineCall.emulate (224 - (scanState eng context z).2))) :=
    RenderFrame.lines_eq eng context frame 312 0 [EngineCall.interrupt 0]
  rw [Nat.zero_add] at key
  unfold RenderFrame
  simp only [hl, if_false]
  rw [key, List.range_eq_range']
  rfl

/-- The frame buffer after `n` scanlines, byte by byte. -/
theorem paint_eq (eng : Engine) (context : Z80_CONTEXT) (frame : Nat → Nat) :
    ∀ (n j : Nat), paint eng context frame n j =
      if j < n * 352 then linePixel (scanState eng context (j / 352 + 1)).1 (j / 352) (j % 352)
      else frame j := by
  intro n
  induction n with
  | zero => intro j; simp [paint]
  | succ n ih =>
    intro j
    rw [paint, CopyScreenLine_eq, ih]
    by_cases h1 : n * 352 ≤ j ∧ j < n * 352 + 352
    · have e1 : j / 352 = n := by omega
      have e2 : j - n * 352 = j % 352 := by omega
      rw [if_pos h1, if_pos (by omega), e1, e2]
    · rw [if_neg h1]
      by_cases h2 : j < n * 352
      · rw [if_pos h2, if_pos (by omega)]
      · rw [if_neg h2, if_neg (by omega)]

theorem andMask_7_le (value : Int) : andMask value 7 % 256 ≤ 7 := by
  rw [andMask_7]; omega

theorem EngineAction.apply_border (c : Z80_CONTEXT) (a : EngineAction) (h : c.border ≤ 7) :
    (a.apply c).border ≤ 7 := by
  cases a with
  | writeByte address b => exact h
  | output port value =>
    show (SystemOutput c port value).border ≤ 7
    unfold SystemOutput
    split
    · exact h
    · exact andMask_7_le value
  | setState state => exact h
  | setDone d => exact h

theorem EngineAction.apply_frame_counter (c : Z80_CONTEXT) (a : EngineAction) :
    (a.apply c).frame_counter = c.frame_counter := by
  cases a with
  | writeByte address b => rfl
  | output port value =>
    show (SystemOutput c port value).frame_counter = c.frame_counter
    unfold SystemOutput
    split <;> rfl
  | setState state => rfl
  | setDone d => rfl

theorem EngineAction.foldl_border (actions : List EngineAction) (c : Z80_CONTEXT)
    (h : c.border ≤ 7) : (actions.foldl EngineAction.apply c).border ≤ 7 := by
  induction actions generalizing c with
  | nil => exact h
  | cons a as ih => exact ih _ (EngineAction.apply_border c a h)

theorem EngineAction.foldl_frame_counter (actions : List EngineAction) (c : Z80_CONTEXT) :
    (actions.foldl EngineAction.apply c).frame_counter = c.frame_counter := by
  induction actions generalizing c with
  | nil => rfl
  | cons a as ih => exact (ih _).trans (EngineAction.apply_frame_counter c a)

theorem scanState_border (eng : Engine) (hv : eng.ViaCallbacks) (c : Z80_CONTEXT)
    (h : c.border ≤ 7) : ∀ y, (scanState eng c y).1.border ≤ 7 := by
  intro y
  induction y with
  | zero =>
    obtain ⟨actions, ha⟩ := hv.1 c 0
    show (eng.Z80Interrupt c 0).1.border ≤ 7
    rw [ha]; exact EngineAction.foldl_border _ _ h
  | succ n ih =>
    obtain ⟨actions, ha⟩ := hv.2 (scanState eng c n).1 (224 - (scanState eng c n).2)
    show (eng.Z80Emulate (scanState eng c n).1 (224 - (scanState eng c n).2)).1.border ≤ 7
    rw [ha]; exact EngineAction.foldl_border _ _ ih

theorem scanState_frame_counter (eng : Engine) (hv : eng.ViaCallbacks) (c : Z80_CONTEXT) :
    ∀ y, (scanState eng c y).1.frame_counter = c.frame_counter := by
  intro y
  induction y with
  | zero =>
    obtain ⟨actions, ha⟩ := hv.1 c 0
    show (eng.Z80Interrupt c 0).1.frame_counter = _
    rw [ha]; exact EngineAction.foldl_frame_counter _ _
  | succ n ih =>
    obtain ⟨actions, ha⟩ := hv.2 (scanState eng c n).1 (224 - (scanState eng c n).2)
    show (eng.Z80Emulate (scanState eng c n).1 (224 - (scanState eng c n).2)).1.frame_counter = _
    rw [ha, EngineAction.foldl_frame_counter]; exact ih

theorem nullEngine_viaCallbacks : nullEngine.ViaCallbacks :=
  ⟨fun _ _ => ⟨[], rfl⟩, fun _ _ => ⟨[], rfl⟩⟩

theorem cycles_partial_sum (eng : Engine) (s : Z80_CONTEXT) : ∀ n : Nat,
    (eng.Z80Interrupt s 0).2 + ((List.range n).map (ticks eng s)).sum =
      (n : Int) * 224 + (scanState eng s n).2 +
        ((List.range n).map (fun y => (scanState eng s y).2)).sum := by
  intro n
  induction n with
  | zero => simp [scanState]
  | succ n ih =>
    rw [List.range_succ, List.map_append, List.map_append, List.sum_append, List.sum_append,
      ← add_assoc, ih]
    simp only [List.map_cons, List.map_nil, List.sum_cons, List.sum_nil, add_zero]
    have ht : ticks eng s n = (scanState eng s (n + 1)).2 + 224 := by
      show _ = (eng.Z80Emulate (scanState eng s n).1 (224 - (scanState eng s n).2)).2 - 224 + 224
      unfold ticks; omega
    rw [ht]
    push_cast
    omega

/-- The cycles of a frame are `312 * 224` plus the last carry plus the sum of the
carries the 312 requests were made with. -/
theorem cyclesConsumed_eq (eng : Engine) (s : Z80_CONTEXT) :
    cyclesConsumed eng s =
      312 * 224 + (scanState eng s 312).2 +
        ((List.range 312).map (fun y => (scanState eng s y).2)).sum := by
  unfold cyclesConsumed
  rw [cycles_partial_sum eng s 312]
  norm_num

theorem scanState_overshoot (s : Z80_CONTEXT) : ∀ y : Nat,
    (scanState overshootEngine s y).2 = ((y % 2 : Nat) : Int) := by
  intro y
  induction y with
  | zero => rfl
  | succ n ih =>
    show (224 - (scanState overshootEngine s n).2 + 1) - 224 = _
    rw [ih]
    omega

set_option maxRecDepth 100000 in
/-- Claim C19 for an engine whose interrupt takes no cycle and whose every `Execute`
call consumes one cycle more than requested: the requests alternate 224, 223, the
cycles consumed alternate 225, 224, the frame consumes 70044 cycles, and 69888 plus
the carry left after the last scanline is 69888. -/
theorem RenderFrame_cycles_accumulate :
    (List.range 4).map (fun y => 224 - (scanState overshootEngine stateKeyHeld y).2)
      = [224, 223, 224, 223] ∧
    (List.range 4).map (ticks overshootEngine stateKeyHeld) = [225, 224, 225, 224] ∧
    cyclesConsumed overshootEngine stateKeyHeld = 70044 ∧
    312 * 224 + (scanState overshootEngine stateKeyHeld 312).2 = 69888 := by
  have hs := scanState_overshoot stateKeyHeld
  have ht : ∀ y, ticks overshootEngine stateKeyHeld y = 225 - ((y % 2 : Nat) : Int) := by
    intro y
    show 224 - (scanState overshootEngine stateKeyHeld y).2 + 1 = _
    rw [hs]; omega
  have hf : ticks overshootEngine stateKeyHeld = fun y => 225 - ((y % 2 : Nat) : Int) :=
    funext ht
  refine ⟨?_, ?_, ?_, ?_⟩
  · simp only [hs]; decide
  · rw [hf]; decide
  · unfold cyclesConsumed
    rw [hf]
    decide
  · rw [hs]; decide

/-! ## Snapshot loader and the prior state -/

/-- The block loop of `ReadV2Format` changes the memory only, in a way that depends on
the memory only. -/
theorem ReadV2Format.loop_frame (data : Nat → Nat) (length : Nat) :
    ∀ (fuel i : Nat) (c c2 : Z80_CONTEXT), c2.memory = c.memory →
      ReadV2Format.loop data length fuel i c2 =
        (ReadV2Format.loop data length fuel i c).map (fun r => { c2 with memory := r.memory }) := by
  intro fuel
  induction fuel with
  | zero =>
    intro i c c2 h
    unfold ReadV2Format.loop
    by_cases hi : i ≠ length
    · simp [hi]
    · simp only [hi, if_false, Option.map]
      rw [← h]
  | succ f ih =>
    intro i c c2 h
    by_cases hi : i ≠ length
    · rw [ReadV2Format.loop, ReadV2Format.loop, if_pos hi, if_pos hi]
      simp only [UnpackMem, h]
      exact ih _ _ _ rfl
    · unfold ReadV2Format.loop
      simp only [hi, if_false, Option.map]
      rw [← h]

theorem LoadZ80Format_frame (eng : Engine) (fuel : Nat) (s : Z80_CONTEXT) (data : Nat → Nat)
    (length : Nat) (r : Z80_CONTEXT) (h : LoadZ80Format eng fuel s data length = some r) :
    r.keyboard = (fun _ => 0xFF) ∧ r.border = ((LoadZ80Format.bitinfo data >>> 1) &&& 7) % 256 ∧
    r.ear = 0 ∧ r.frame_counter = 0 ∧ r.is_done = 0 := by
  rw [LoadZ80Format_eq] at h
  split at h
  · unfold ReadV2Format at h
    rw [ReadV2Format.loop_frame data length fuel _ _ _ rfl] at h
    cases hl : ReadV2Format.loop data length fuel (32 + READWORD data 30)
        { LoadZ80Format.header eng s data with
          state := { (LoadZ80Format.header eng s data).state with pc := READWORD data 32 } } with
    | none => rw [hl] at h; simp at h
    | some r' =>
      rw [hl] at h
      simp only [Option.map, Option.some.injEq] at h
      subst h
      exact ⟨rfl, rfl, rfl, rfl, rfl⟩
  · simp only [Option.some.injEq] at h
    subst h
    exact ⟨rfl, rfl, rfl, rfl, rfl⟩

theorem LoadZ80Format_border_le (eng : Engine) (fuel : Nat) (s : Z80_CONTEXT) (data : Nat → Nat)
    (length : Nat) (r : Z80_CONTEXT) (h : LoadZ80Format eng fuel s data length = some r) :
    r.border ≤ 7 := by
  rw [(LoadZ80Format_frame eng fuel s data length r h).2.1]
  have : (LoadZ80Format.bitinfo data >>> 1) &&& 7 < 2 ^ 3 := Nat.and_lt_two_pow _ (by norm_num)
  norm_num at this
  omega

theorem LoadZ80Format_reinitialises (eng : Engine) (fuel : Nat) (s1 s2 : Z80_CONTEXT)
    (data : Nat → Nat) (length : Nat) :
    (LoadZ80Format eng fuel s1 data length).map loadedFields =
      (LoadZ80Format eng fuel s2 data length).map loadedFields := by
  rw [LoadZ80Format_eq, LoadZ80Format_eq]
  by_cases hpc : READWORD data 6 = 0
  · rw [if_pos hpc, if_pos hpc]
    unfold ReadV2Format
    simp only []
    rw [ReadV2Format.loop_frame data length fuel _
      { LoadZ80Format.header eng s1 data with
        state := { (LoadZ80Format.header eng s1 data).state with pc := READWORD data 32 } }
      { LoadZ80Format.header eng s2 data with
        state := { (LoadZ80Format.header eng s2 data).state with pc := READWORD data 32 } } rfl]
    have h1 := ReadV2Format.loop_frame data length fuel (32 + READWORD data 30)
      { LoadZ80Format.header eng s1 data with
        state := { (LoadZ80Format.header eng s1 data).state with pc := READWORD data 32 } }
      { LoadZ80Format.header eng s1 data with
        state := { (LoadZ80Format.header eng s1 data).state with pc := READWORD data 32 } } rfl
    cases hl : ReadV2Format.loop data length fuel (32 + READWORD data 30)
        { LoadZ80Format.header eng s1 data with
          state := { (LoadZ80Format.header eng s1 data).state with pc := READWORD data 32 } } with
    | none => rfl
    | some r =>
      rw [hl] at h1
      simp only [Option.map, Option.some.injEq] at h1
      simp only [Option.map]
      rw [h1]
      rfl
  · rw [if_neg hpc, if_neg hpc]
    rfl

/-- Claim C11: for every snapshot buffer and any two prior machine states,
`LoadZ80Format` ends the same way from both (it returns from both or from neither)
with identical memory, keyboard, border, ear, frame counter, done flag and
identical values of every register the loader assigns; when the reset of the
engine leaves no trace of the prior CPU state in its private part either, the two
resulting machine states are equal altogether. -/
theorem LoadZ80Format_prior_state (eng : Engine) (fuel : Nat) (s1 s2 : Z80_CONTEXT)
    (data : Nat → Nat) (length : Nat) :
    (LoadZ80Format eng fuel s1 data length).map loadedFields =
      (LoadZ80Format eng fuel s2 data length).map loadedFields ∧
    ((eng.Z80Reset s1.state).internal = (eng.Z80Reset s2.state).internal →
      LoadZ80Format eng fuel s1 data length = LoadZ80Format eng fuel s2 data length) := by
  refine ⟨LoadZ80Format_reinitialises eng fuel s1 s2 data length, ?_⟩
  intro h
  have hh : LoadZ80Format.header eng s1 data = LoadZ80Format.header eng s2 data := by
    simp [LoadZ80Format.header, InitContext, h]
  rw [LoadZ80Format_eq, LoadZ80Format_eq, hh]

theorem LoadZ80Format_prior_state_witness :
    LoadZ80Format resetEngine 0 stateKeyHeld snapshotClassic 33 =
      LoadZ80Format resetEngine 0 stateFrame5 snapshotClassic 33 :=
  (LoadZ80Format_prior_state resetEngine 0 stateKeyHeld stateFrame5 snapshotClassic 33).2 rfl

/-! ## Invariants of the machine state -/

theorem RenderFrame_border_le (eng : Engine) (hv : eng.ViaCallbacks) (c : Z80_CONTEXT)
    (frame : Nat → Nat) (length : Int) (h : c.border ≤ 7) :
    (RenderFrame eng c frame length).context.border ≤ 7 := by
  by_cases hl : 109824 ≤ length
  · rw [RenderFrame_eq eng c frame length hl]
    exact scanState_border eng hv c h 312
  · have : length < 109824 := by omega
    rw [RenderFrame_of_lt eng c frame length this]
    exact h

/-- The border colour of a reachable machine state is at most 7. -/
theorem Reachable.border_le (eng : Engine) (hv : eng.ViaCallbacks) (c : Z80_CONTEXT)
    (h : Reachable eng c) : c.border ≤ 7 := by
  induction h with
  | create fresh => show (0 : Nat) ≤ 7; omega
  | @keyDown c c' k _ hk ih =>
    unfold KeyDown at hk
    split at hk
    · simp only [Option.some.injEq] at hk; subst hk; exact ih
    · split at hk
      · simp only [Option.some.injEq] at hk; subst hk; exact ih
      · simp at hk
  | @keyUp c c' k _ hk ih =>
    unfold KeyUp at hk
    split at hk
    · simp only [Option.some.injEq] at hk; subst hk; exact ih
    · split at hk
      · simp only [Option.some.injEq] at hk; subst hk; exact ih
      · simp at hk
  | readMemory offset _ ih => exact ih
  | writeMemory offset b _ ih => exact ih
  | load fuel data length _ hl _ => exact LoadZ80Format_border_le eng fuel _ data length _ hl
  | render frame length _ ih => exact RenderFrame_border_le eng hv _ frame length ih
  | callback action _ ih => exact EngineAction.apply_border _ action ih
  | @portRead c port _ ih =>
    rw [(SystemInput_andSelected c port).1]; exact ih

theorem frame_counter_steps (eng : Engine) (hv : eng.ViaCallbacks) (s : Z80_CONTEXT) :
    (∀ k s', KeyDown s k = some s' → s'.frame_counter = s.frame_counter) ∧
    (∀ k s', KeyUp s k = some s' → s'.frame_counter = s.frame_counter) ∧
    (∀ offset, (ReadMemory s offset).1.frame_counter = s.frame_counter) ∧
    (∀ offset b, (WriteMemory s offset b).1.frame_counter = s.frame_counter) ∧
    (∀ port, (SystemInput s port).1.frame_counter = s.frame_counter) ∧
    (∀ port value, (SystemOutput s port value).frame_counter = s.frame_counter) ∧
    (∀ frame length, 109824 ≤ length →
      (RenderFrame eng s frame length).context.frame_counter = wrap32 (s.frame_counter + 1)) ∧
    (∀ frame length, length < 109824 →
      (RenderFrame eng s frame length).context.frame_counter = s.frame_counter) ∧
    (∀ fuel data length s', LoadZ80Format eng fuel s data length = some s' →
      s'.frame_counter = 0) := by
  refine ⟨?_, ?_, fun _ => rfl, fun _ _ => rfl, ?_, ?_, ?_, ?_, ?_⟩
  · intro k s' hk
    unfold KeyDown at hk
    split at hk
    · simp only [Option.some.injEq] at hk; subst hk; rfl
    · split at hk
      · simp only [Option.some.injEq] at hk; subst hk; rfl
      · simp at hk
  · intro k s' hk
    unfold KeyUp at hk
    split at hk
    · simp only [Option.some.injEq] at hk; subst hk; rfl
    · split at hk
      · simp only [Option.some.injEq] at hk; subst hk; rfl
      · simp at hk
  · intro port
    rw [(SystemInput_andSelected s port).1]
  · intro port value
    exact EngineAction.apply_frame_counter s (EngineAction.output port value)
  · intro frame length hl
    rw [RenderFrame_eq eng s frame length hl]
    show wrap32 ((scanState eng s 312).1.frame_counter + 1) = _
    rw [scanState_frame_counter eng hv s 312]
  · intro frame length hl
    rw [RenderFrame_of_lt eng s frame length hl]
  · intro fuel data length s' h
    exact (LoadZ80Format_frame eng fuel s data length s' h).2.2.2.1

/-- At the limits of `int` the model follows the compiled code: a length of
`INT_MIN` makes `RenderFrame` return `109824 - INT_MIN` kept to 32 bits, and a
rendered frame takes `frame_counter` from `INT_MAX` to `INT_MIN`. -/
theorem RenderFrame_int_limits (eng : Engine) (hv : eng.ViaCallbacks) (s : Z80_CONTEXT)
    (frame : Nat → Nat) :
    (RenderFrame eng s frame (-2147483648)).ret = -2147373824 ∧
    (s.frame_counter = 2147483647 → ∀ length, 109824 ≤ length →
      (RenderFrame eng s frame length).context.frame_counter = -2147483648) := by
  constructor
  · rw [RenderFrame_of_lt eng s frame _ (by norm_num)]
    show wrap32 _ = _
    unfold wrap32
    norm_num
  · intro h length hl
    rw [(frame_counter_steps eng hv s).2.2.2.2.2.2.1 frame length hl, h]
    unfold wrap32
    norm_num

/-- Claim C16: for every engine acting through its callbacks, every machine state
reachable from `CreateContext` and every buffer length of at least 109824,
`RenderFrame` writes each of the first 352*312 bytes of the buffer (its value no
longer depends on what the buffer held), each with a value in 0..15, and leaves
every byte from index 109824 on as it was. -/
theorem RenderFrame_pixel_buffer (eng : Engine) (hv : eng.ViaCallbacks) (s : Z80_CONTEXT)
    (hs : Reachable eng s) (frame : Nat → Nat) (length : Int) (hl : 109824 ≤ length) :
    (∀ j, j < 109824 → (RenderFrame eng s frame length).frame j ≤ 15) ∧
    (∀ j, j < 109824 → ∀ frame' : Nat → Nat,
      (RenderFrame eng s frame' length).frame j = (RenderFrame eng s frame length).frame j) ∧
    (∀ j, 109824 ≤ j → (RenderFrame eng s frame length).frame j = frame j) := by
  have hb := Reachable.border_le eng hv s hs
  refine ⟨?_, ?_, ?_⟩
  · intro j hj
    rw [RenderFrame_eq eng s frame length hl]
    show paint eng s frame 312 j ≤ 15
    rw [paint_eq, if_pos (by omega)]
    apply linePixel_le
    have := scanState_border eng hv s hb (j / 352 + 1)
    omega
  · intro j hj frame'
    rw [RenderFrame_eq eng s frame length hl, RenderFrame_eq eng s frame' length hl]
    show paint eng s frame' 312 j = paint eng s frame 312 j
    rw [paint_eq, paint_eq, if_pos (by omega), if_pos (by omega)]
  · intro j hj
    rw [RenderFrame_eq eng s frame length hl]
    show paint eng s frame 312 j = frame j
    rw [paint_eq, if_neg (by omega)]

theorem RenderFrame_pixel_buffer_witness :
    (∀ j, j < 109824 →
      (RenderFrame nullEngine (CreateContext nullEngine stateFilled) (fun _ => 99) 109824).frame j
        ≤ 15) ∧
    (∀ j, 109824 ≤ j →
      (RenderFrame nullEngine (CreateContext nullEngine stateFilled) (fun _ => 99) 109824).frame j
        = 99) :=
  have h := RenderFrame_pixel_buffer nullEngine nullEngine_viaCallbacks
    (CreateContext nullEngine stateFilled) (Reachable.create stateFilled) (fun _ => 99) 109824
    (by decide)
  ⟨h.1, h.2.2⟩

/-! ## Reads of the snapshot buffer -/

theorem UnpackMem.loop_high (data : Nat → Nat) (end_ c : Nat) (a : Nat) (ha : 65536 ≤ a) :
    ∀ (fuel i : Nat) (memory : Nat → Nat) (offset : Nat), offset < 65536 →
      (UnpackMem.loop data end_ c fuel i memory offset).1 a = memory a := by
  intro fuel
  induction fuel with
  | zero => intro i memory offset _; rfl
  | succ f ih =>
    intro i memory offset ho
    rw [UnpackMem.loop]
    split
    · split
      · rfl
      · split
        · simp only [UnpackMem.fill_eq]
          rw [ih _ _ _ (writeSeq_snd_lt _ _ _ ho)]
          apply writeSeq_other _ _ _ _ ho
          intro j _
          have := Nat.mod_lt (offset + j) (by norm_num : 65536 > 0)
          omega
        · rw [ih _ _ _ (Nat.mod_lt _ (by norm_num))]
          unfold setByte
          rw [if_neg (by omega)]
    · rfl

theorem UnpackMem_high (context : Z80_CONTEXT) (offset : Nat) (data : Nat → Nat)
    (start end_ c : Nat) (a : Nat) (ha : 65536 ≤ a) :
    (UnpackMem context offset data start end_ c).1.memory a = context.memory a :=
  UnpackMem.loop_high data end_ c a ha _ _ _ _ (Nat.mod_lt _ (by norm_num))

theorem ReadV2Format.loop_memory_high (data : Nat → Nat) (length : Nat) (a : Nat) (ha : 65536 ≤ a) :
    ∀ (fuel i : Nat) (c r : Z80_CONTEXT), ReadV2Format.loop data length fuel i c = some r →
      r.memory a = c.memory a := by
  intro fuel
  induction fuel with
  | zero =>
    intro i c r h
    unfold ReadV2Format.loop at h
    split at h
    · simp at h
    · simp only [Option.some.injEq] at h; rw [h]
  | succ f ih =>
    intro i c r h
    rw [ReadV2Format.loop] at h
    split at h
    · rw [ih _ _ _ h]
      exact UnpackMem_high _ _ _ _ _ _ a ha
    · simp only [Option.some.injEq] at h; rw [h]

/-- A load stores nothing outside `memory[0..65535]`. -/
theorem LoadZ80Format_memory_high (eng : Engine) (fuel : Nat) (s : Z80_CONTEXT)
    (data : Nat → Nat) (length : Nat) (r : Z80_CONTEXT)
    (h : LoadZ80Format eng fuel s data length = some r) (a : Nat) (ha : 65536 ≤ a) :
    r.memory a = (InitContext eng s).memory a := by
  rw [LoadZ80Format_eq] at h
  split at h
  · unfold ReadV2Format at h
    exact (ReadV2Format.loop_memory_high data length a ha _ _ _ _ h).trans rfl
  · simp only [Option.some.injEq] at h
    rw [← h]
    exact (UnpackMem_high _ _ _ _ _ _ a ha).trans rfl

theorem UnpackMem.loop_congr (d1 d2 : Nat → Nat) (end_ c : Nat)
    (h : ∀ j, j < end_ + 3 → d1 j = d2 j) :
    ∀ (fuel i : Nat) (memory : Nat → Nat) (offset : Nat),
      UnpackMem.loop d1 end_ c fuel i memory offset
        = UnpackMem.loop d2 end_ c fuel i memory offset := by
  intro fuel
  induction fuel with
  | zero => intro i memory offset; rfl
  | succ f ih =>
    intro i memory offset
    rw [UnpackMem.loop, UnpackMem.loop]
    by_cases hi : i < end_
    · rw [if_pos hi, if_pos hi]
      simp only [Nat.add_zero, h i (by omega), h (i + 1) (by omega), h (i + 2) (by omega),
        h (i + 3) (by omega), ih]
    · rw [if_neg hi, if_neg hi]

/-- The result of `UnpackMem` depends on the buffer only below index `end_ + 3`. -/
theorem UnpackMem_congr (context : Z80_CONTEXT) (offset : Nat) (d1 d2 : Nat → Nat)
    (start end_ c : Nat) (h : ∀ j, j < end_ + 3 → d1 j = d2 j) :
    UnpackMem context offset d1 start end_ c = UnpackMem context offset d2 start end_ c := by
  unfold UnpackMem
  rw [UnpackMem.loop_congr d1 d2 end_ c h]

set_option maxRecDepth 100000 in
/-- Claim C13 on a well-formed extended snapshot of 38 bytes whose only block is the
single byte `ED`, and on a classic snapshot cut after 10 bytes: the memory and the
registers the load leaves differ with the bytes that follow the buffer, so the
load has read the buffer at indices `length` and above. -/
theorem LoadZ80Format_reads_past_length :
    (Tiles snapshotLastED 38 (32 + leWord snapshotLastED 30) [Block.packed 8 [Token.lit 0xED]] ∧
      leWord snapshotLastED 6 = 0) ∧
    (∀ j, j < 38 → snapshotLastEDFollowed j = snapshotLastED j) ∧
    (LoadZ80Format nullEngine 1 stateKeyHeld snapshotLastED 38).map
      (fun s => (s.memory 0x4000, s.memory 0x4001)) = some (0xED, 0) ∧
    (LoadZ80Format nullEngine 1 stateKeyHeld snapshotLastEDFollowed 38).map
      (fun s => (s.memory 0x4000, s.memory 0x4001)) = some (0x07, 0x07) ∧
    (∀ j, j < 10 → snapshotTruncated j = snapshotClassic j) ∧
    (LoadZ80Format nullEngine 0 stateKeyHeld snapshotTruncated 10).map
      (fun s => s.state.i) = some 0 ∧
    (LoadZ80Format nullEngine 0 stateKeyHeld snapshotClassic 10).map
      (fun s => s.state.i) = some 0x3F := by
  decide

set_option maxRecDepth 100000 in
/-- Claim C20 on two buffers that agree on the region `[0, 2)` (the bytes `11 ED`) and
differ after it, and on two extended snapshots that agree up to the end of their
first block (the single byte `ED` for page 8) and differ in the length field of the
second block: the memory and the offset `UnpackMem` leaves differ, and so does what
the first block is decoded to. -/
theorem UnpackMem_following_bytes :
    (∀ j, j < 2 → bufferOf [0x11, 0xED, 0xED, 0x03, 0x22] j = bufferOf [0x11, 0xED, 0x00] j) ∧
    (UnpackMem stateFilled 0x4000 (bufferOf [0x11, 0xED, 0xED, 0x03, 0x22]) 0 2 1).2 = 0x4004 ∧
    (UnpackMem stateFilled 0x4000 (bufferOf [0x11, 0xED, 0xED, 0x03, 0x22]) 0 2 1).1.memory 0x4001
      = 0x22 ∧
    (UnpackMem stateFilled 0x4000 (bufferOf [0x11, 0xED, 0x00]) 0 2 1).2 = 0x4002 ∧
    (UnpackMem stateFilled 0x4000 (bufferOf [0x11, 0xED, 0x00]) 0 2 1).1.memory 0x4001 = 0xED ∧
    (∀ j, j < 38 → snapshotRunAcross j = snapshotRunApart j) ∧
    snapshotRunAcross 38 = 0xED ∧ snapshotRunApart 38 = 0xEC ∧
    (LoadZ80Format nullEngine 2 stateKeyHeld snapshotRunAcross (41 + 237)).map
      (fun s => s.memory 0x4000) = some 0 ∧
    (LoadZ80Format nullEngine 2 stateKeyHeld snapshotRunApart (41 + 236)).map
      (fun s => s.memory 0x4000) = some 0xED := by
  decide

end Z80Emu
